import Mathlib

/-!
Verification development for the `docugen` documentation generator
(`docugen/parser.py`, `docugen/pretty_docs.py`).

Python strings are modelled as `List Char`, dictionaries as association
lists with Python-dict insertion/update semantics, and fallible code as
`Except`/`Option`.  Regex-driven code is modelled by direct translation of
the scanning discipline of the concrete regexes involved (left-to-right
scan, leftmost alternative, non-greedy repetition).  Recursions that skip
ahead in the input are written with an explicit fuel argument (initialised
with the input length) so that every definition is structurally recursive
and computable by kernel reduction.
-/

namespace Docugen

/-- Text, modelled as a list of characters. -/
abbrev Str := List Char

/-! ## `ReferenceResolver.replace_backticks` (parser.py)

`AUTO_REFERENCE_RE` is
`(?P<brackets>\[.*?\])|\x60(?P<backticks>[\w\(\[\)\]\{\}.,=\s]+?)\x60`.
`replace_backticks` applies `re.sub(AUTO_REFERENCE_RE, self._replace, line)`
to every line of the input (`filters` is always the empty list, so every
line is processed) and joins the lines with `"\n"`.  `_replace` returns
bracket groups unchanged and wraps backtick groups in `<code>...</code>`.
-/

/-- `\w` of the regex (ASCII fragment: letters, digits, underscore). -/
def isWordChar (c : Char) : Bool := c.isAlphanum || c == '_'

/-- `\s` of the regex (ASCII whitespace as recognised by Python `re`). -/
def isPySpace (c : Char) : Bool :=
  c == ' ' || c == '\t' || c == '\n' || c == '\r' || c == '\x0b' || c == '\x0c'

/-- The character class `[\w\(\[\)\]\{\}.,=\s]` of the `backticks` branch of
`AUTO_REFERENCE_RE`. -/
def allowedTick (c : Char) : Bool :=
  isWordChar c || c == '(' || c == '[' || c == ')' || c == ']' ||
  c == '\x7b' || c == '\x7d' || c == '.' || c == ',' || c == '=' || isPySpace c

/-- Attempt of the `brackets` branch `\[.*?\]` just after an opening `[`:
non-greedy, so the span ends at the first `]`.  Returns the span's interior
and the rest of the line, or `none` when no `]` follows. -/
def brackSplit (xs : Str) : Option (Str × Str) :=
  match xs.dropWhile (fun c => c != ']') with
  | ']' :: r => some (xs.takeWhile (fun c => c != ']'), r)
  | _ => none

/-- Attempt of the `backticks` branch after an opening backtick: a non-empty
non-greedy run of `allowedTick` characters closed by a backtick.  Since the
closing backtick is not in the class, the shortest match is the maximal
`allowedTick` run, provided the character ending that run is a backtick. -/
def tickSplit (xs : Str) : Option (Str × Str) :=
  match xs.takeWhile allowedTick, xs.dropWhile allowedTick with
  | a :: as, '\x60' :: r => some (a :: as, r)
  | _, _ => none

def codeOpen : Str := "<code>".data
def codeClose : Str := "</code>".data

/-- One `re.sub(AUTO_REFERENCE_RE, self._replace, line)` pass over a single
line: left-to-right scan; at `[` the `brackets` branch is tried first and
the span is emitted unchanged; at a backtick the `backticks` branch is
tried and the span is emitted as `<code>...</code>`; otherwise the
character is copied.  `fuel`-indexed; run with `fuel = length`. -/
def lineSubF : Nat → Str → Str
  | 0, cs => cs
  | _ + 1, [] => []
  | f + 1, c :: xs =>
    if c = '[' then
      match brackSplit xs with
      | some (pre, r) => '[' :: (pre ++ ']' :: lineSubF f r)
      | none => '[' :: lineSubF f xs
    else if c = '\x60' then
      match tickSplit xs with
      | some (a, r) => codeOpen ++ a ++ codeClose ++ lineSubF f r
      | none => '\x60' :: lineSubF f xs
    else c :: lineSubF f xs

/-- `re.sub(AUTO_REFERENCE_RE, self._replace, line)` on one line. -/
def lineSub (cs : Str) : Str := lineSubF cs.length cs

/-- Python line-boundary characters recognised by `str.splitlines`. -/
def isLineSep (c : Char) : Bool :=
  c == '\n' || c == '\r' || c == '\x0b' || c == '\x0c' ||
  c == '\x1c' || c == '\x1d' || c == '\x1e' || c == '\x85' ||
  c == '\u2028' || c == '\u2029'

/-- After a `\r`, Python consumes an immediately following `\n` as part of
the same line boundary. -/
def dropNl : Str → Str
  | '\n' :: rest => rest
  | rest => rest

/-- `str.splitlines()` (keepends = False); `\r\n` counts as one boundary.
`fuel`-indexed; run with `fuel = length`. -/
def splitlinesGoF : Nat → Str → Str → List Str
  | 0, acc, _ => if acc = [] then [] else [acc.reverse]
  | _ + 1, acc, [] => if acc = [] then [] else [acc.reverse]
  | f + 1, acc, c :: rest =>
    if c = '\r' then acc.reverse :: splitlinesGoF f [] (dropNl rest)
    else if isLineSep c then acc.reverse :: splitlinesGoF f [] rest
    else splitlinesGoF f (c :: acc) rest

def splitlinesGo (acc cs : Str) : List Str := splitlinesGoF cs.length acc cs

def splitlines (cs : Str) : List Str := splitlinesGo [] cs

/-- `sep.join(parts)`. -/
def joinC (sep : Char) : List Str → Str
  | [] => []
  | [l] => l
  | l :: ls => l ++ sep :: joinC sep ls

/-- `ReferenceResolver.replace_backticks`: split into lines, rewrite each
line with `AUTO_REFERENCE_RE`, join with `"\n"`. -/
def replace_backticks (cs : Str) : Str :=
  joinC '\n' ((splitlines cs).map lineSub)

/-! ### Tokenisation of one line by `AUTO_REFERENCE_RE`

The scan of a line decomposes it into plain characters, matched bracket
groups, and matched backtick groups; this decomposition makes precise which
spans the substitution rewrites. -/

inductive Tok : Type where
  | plain (c : Char)
  | brack (content : Str)
  | tick (content : Str)
deriving DecidableEq, Repr

/-- The input text a token stands for. -/
def origTok : Tok → Str
  | .plain c => [c]
  | .brack b => '[' :: (b ++ [']'])
  | .tick a => '\x60' :: (a ++ ['\x60'])

/-- The output text `_replace` emits for a token. -/
def rendrTok : Tok → Str
  | .plain c => [c]
  | .brack b => '[' :: (b ++ [']'])
  | .tick a => codeOpen ++ a ++ codeClose

/-- Tokenisation of one line, following exactly the scan of `lineSubF`. -/
def tokenizeF : Nat → Str → List Tok
  | 0, _ => []
  | _ + 1, [] => []
  | f + 1, c :: xs =>
    if c = '[' then
      match brackSplit xs with
      | some (pre, r) => .brack pre :: tokenizeF f r
      | none => .plain '[' :: tokenizeF f xs
    else if c = '\x60' then
      match tickSplit xs with
      | some (a, r) => .tick a :: tokenizeF f r
      | none => .plain '\x60' :: tokenizeF f xs
    else .plain c :: tokenizeF f xs

def tokenize (cs : Str) : List Tok := tokenizeF cs.length cs

/-- Fixed-point check for the scan: `true` iff a pass makes no backtick
replacement (bracket groups and plain characters are emitted verbatim, so
the pass is the identity exactly when no backtick group matches). -/
def lineFixedF : Nat → Str → Bool
  | 0, _ => true
  | _ + 1, [] => true
  | f + 1, c :: xs =>
    if c = '[' then
      match brackSplit xs with
      | some (_, r) => lineFixedF f r
      | none => lineFixedF f xs
    else if c = '\x60' then
      match tickSplit xs with
      | some _ => false
      | none => lineFixedF f xs
    else lineFixedF f xs

def lineFixed (cs : Str) : Bool := lineFixedF cs.length cs

/-- The suffix after the first `]` of a string (used to describe where the
scan resumes after a bracket group). -/
def afterRB (cs : Str) : Str := (cs.dropWhile (fun c => c != ']')).tail

/-- The first character outside the leading `allowedTick` run (the only
place a closing backtick can sit). -/
def firstDis (xs : Str) : Option Char := (xs.dropWhile allowedTick).head?

/-! ## `_AddDoctestFences` (parser.py)

`CARET_BLOCK_RE` is (VERBOSE, DOTALL)
`\n(?P<indent>\ *)(?P<content>\>\>\>.*?)\n\s*?(?=\n|$)` and `_sub` replaces
a match with `fence + indent + content + fence` where
`fence = "\n" + indent + "x60x60x60\n"` (three backticks).  The scan below is the
faithful translation: the match starts at a newline, `indent` is a greedy
run of spaces, `content` starts with `>>>` and is non-greedy, the
terminator is a newline followed by a minimal (possibly empty) whitespace
run whose lookahead is a newline or the end of the string. -/

/-- The `\n\s*?(?=\n|$)` terminator tail: given the text after the
candidate content-ending newline, consume the minimal whitespace run whose
next character is a newline (left unconsumed) or the end of the string.
Returns the rest of the input starting at the lookahead position. -/
def blankTerm : Str → Option Str
  | [] => some []
  | c :: r =>
    if c = '\n' then some (c :: r)
    else if isPySpace c then blankTerm r
    else none

/-- Non-greedy search for the earliest content-ending newline whose
`blankTerm` succeeds.  Returns the content before that newline, and the
rest of the input after the match. -/
def findTerm : Str → Option (Str × Str)
  | [] => none
  | c :: r =>
    if c = '\n' then
      match blankTerm r with
      | some rest => some ([], rest)
      | none => (findTerm r).map (fun p => ('\n' :: p.1, p.2))
    else (findTerm r).map (fun p => (c :: p.1, p.2))

def fenceLine (indent : Str) : Str := '\n' :: (indent ++ "```\n".data)

/-- `_AddDoctestFences.__call__`: `CARET_BLOCK_RE.sub(self._sub, content)`.
`fuel`-indexed; run with `fuel = length`. -/
def addDoctestFencesF : Nat → Str → Str
  | 0, cs => cs
  | _ + 1, [] => []
  | f + 1, c :: xs =>
    if c = '\n' then
      let indent := xs.takeWhile (fun c => c = ' ')
      let aft := xs.drop indent.length
      if ">>>".data.isPrefixOf aft then
        match findTerm (aft.drop 3) with
        | some (t, rest) =>
          fenceLine indent ++ indent ++ ">>>".data ++ t ++ fenceLine indent ++
            addDoctestFencesF f rest
        | none => '\n' :: addDoctestFencesF f xs
      else '\n' :: addDoctestFencesF f xs
    else c :: addDoctestFencesF f xs

def addDoctestFences (cs : Str) : Str := addDoctestFencesF cs.length cs

/-! ## `documentation_path` and `ReferenceResolver.reference_to_url`
(parser.py) -/

/-- Split a string at every occurrence of a separator character
(`str.split(sep)`); always returns a non-empty list. -/
def splitOnC (sep : Char) : Str → List Str
  | [] => [[]]
  | c :: r =>
    if c = sep then [] :: splitOnC sep r
    else
      match splitOnC sep r with
      | s :: ss => (c :: s) :: ss
      | [] => [[c]]

/-- `full_name.rsplit(".", 1)` when the name contains a dot (Python raises
`ValueError` on unpacking otherwise, modelled as `none`). -/
def rsplitDot (cs : Str) : Option (Str × Str) :=
  let parts := splitOnC '.' cs
  if parts.length ≤ 1 then none
  else some (joinC '.' parts.dropLast, parts.getLastD [])

/-- `documentation_path(full_name, is_fragment)`: the page path mirrors the
dotted name (`os.path.join(*parts) + ".md"`); for a fragment the last
segment becomes an in-page anchor on the parent's page
(`tf.a.b.c -> tf/a/b.md#c`). -/
def documentation_path (full_name : Str) (is_fragment : Bool) : Str :=
  let parts := splitOnC '.' full_name
  if is_fragment then
    joinC '/' parts.dropLast ++ ".md".data ++ '#' :: parts.getLastD []
  else
    joinC '/' parts ++ ".md".data

/-- `os.path.join(a, b)` for the POSIX flavour used by the generator. -/
def osJoin (a b : Str) : Str :=
  if b.head? = some '/' then b
  else if a = [] then b
  else if a.getLast? = some '/' then a ++ b
  else a ++ '/' :: b

/-- The state of a `ReferenceResolver`: `duplicate_of` maps alias names to
canonical ("main") names, `is_fragment` maps every indexed full name to
whether its documentation lives as a fragment of its parent page.  The
index of known names is `is_fragment`'s key set
(`self._all_names = set(is_fragment.keys())`). -/
structure RefResolver where
  duplicate_of : List (Str × Str)
  is_fragment : List (Str × Bool)

def rrLookup {α : Type} : List (Str × α) → Str → Option α
  | [], _ => none
  | (k, v) :: d, q => if k = q then some v else rrLookup d q

def RefResolver.allNames (r : RefResolver) : List Str := r.is_fragment.map (·.1)

/-- `self._duplicate_of.get(name, name)`: the canonical (main) name. -/
def RefResolver.mainOf (r : RefResolver) (name : Str) : Str :=
  (rrLookup r.duplicate_of name).getD name

/-- The lookup name computed by `reference_to_url`: for a fragment, the
parent's canonical name joined with the short name; otherwise the symbol's
own canonical name.  `none` models the `ValueError` Python would raise when
a fragment-classified name has no dot. -/
def RefResolver.lookupName (r : RefResolver) (ref : Str) : Option Str :=
  if (rrLookup r.is_fragment ref).getD false then
    match rsplitDot ref with
    | none => none
    | some (parent, short) => some (r.mainOf parent ++ '.' :: short)
  else some (r.mainOf ref)

/-- `ReferenceResolver.reference_to_url(ref_full_name,
relative_path_to_root)`; `DocsError` is modelled as `Except.error`. -/
def reference_to_url (r : RefResolver) (ref rel : Str) : Except Str Str :=
  match r.lookupName ref with
  | none => .error "ValueError: not enough values to unpack".data
  | some main =>
    if main ∈ r.allNames then
      .ok (osJoin rel (documentation_path main ((rrLookup r.is_fragment main).getD false)))
    else
      .error ("Cannot make link to ".data ++ main ++ ": Not in index.".data)

/-! ## Python dictionaries

Association lists with Python `dict` semantics: insertion keeps first-seen
key positions, assignment to an existing key updates in place, `pop`
removes a key, `setdefault` only inserts missing keys, `update` assigns
every pair of the source in order. -/

abbrev Dict (α : Type) : Type := List (Str × α)

def dNil {α : Type} : Dict α := []

def dLookup {α : Type} : Dict α → Str → Option α
  | [], _ => none
  | (k, v) :: d, q => if k = q then some v else dLookup d q

def dInsert {α : Type} : Dict α → Str × α → Dict α
  | [], kv => [kv]
  | (k, v) :: d, (q, w) => if k = q then (k, w) :: d else (k, v) :: dInsert d (q, w)

/-- `dict(pairs)` / a dict comprehension over a pair list. -/
def dFromList {α : Type} (l : List (Str × α)) : Dict α := l.foldl dInsert dNil

/-- `d.pop(key, None)`: the removed value (if any) and the remaining dict. -/
def dPop {α : Type} (d : Dict α) (k : Str) : Option α × Dict α :=
  (dLookup d k, d.filter (fun kv => !(kv.1 = k : Bool)))

/-- `d.setdefault(key, value)` (result dict only). -/
def dSetdefault {α : Type} (d : Dict α) (k : Str) (v : α) : Dict α :=
  if (dLookup d k).isSome then d else d ++ [(k, v)]

/-- `d.update(e)` for a pair list `e`. -/
def dUpdate {α : Type} (d : Dict α) (e : List (Str × α)) : Dict α :=
  e.foldl dInsert d

def dKeys {α : Type} (d : Dict α) : List Str := d.map (·.1)

/-- First-defined choice of two optional values (used to phrase lookup
priorities). -/
def oFirst {α : Type} : Option α → Option α → Option α
  | some v, _ => some v
  | none, b => b

/-! ## Docstring data (parser.py)

`TitleBlock` and the parsed docstring carried by every page.  Item
descriptions are `Option Str` because the synthesized attributes block
holds `None` placeholders for named-tuple fields without a description. -/

structure TitleBlock where
  title : Str
  text : Str
  items : List (Str × Option Str)
deriving DecidableEq, Repr

inductive DocPart : Type where
  | text (s : Str)
  | block (b : TitleBlock)
deriving DecidableEq, Repr

/-- `_DocstringInfo(brief, docstring_parts)`. -/
structure DocstringInfo where
  brief : Str
  docstring_parts : List DocPart
deriving DecidableEq, Repr

/-- `_FileLocation` (only the `url` field is consulted by the renderer). -/
structure FileLocation where
  url : Option Str
deriving DecidableEq, Repr

/-! ## `PageInfo` write-once fields (parser.py)

`set_defined_in` / `set_aliases` / `set_doc` each `assert` that the field
is still `None` before writing; the failing `assert` (an `AssertionError`)
is modelled as `Except.error`. -/

structure PageInfo where
  full_name : Str
  defined_in : Option FileLocation
  aliases : Option (List Str)
  doc : Option DocstringInfo
deriving DecidableEq, Repr

def PageInfo.set_defined_in (p : PageInfo) (v : FileLocation) :
    Except Str PageInfo :=
  if p.defined_in ≠ none then .error "AssertionError".data
  else .ok { p with defined_in := some v }

def PageInfo.set_aliases (p : PageInfo) (v : List Str) : Except Str PageInfo :=
  if p.aliases ≠ none then .error "AssertionError".data
  else .ok { p with aliases := some v }

def PageInfo.set_doc (p : PageInfo) (v : DocstringInfo) : Except Str PageInfo :=
  if p.doc ≠ none then .error "AssertionError".data
  else .ok { p with doc := some v }

/-! ## `split_methods` and `_method_sort` (pretty_docs.py) -/

/-- The fields of `MethodInfo` consumed by the renderer.  The rendered
signature text (`str(method_info.signature)` in `_build_signature`) is
carried as `signatureStr`; `none` models `signature is None`. -/
structure MethodInfo where
  short_name : Str
  full_name : Str
  doc : DocstringInfo
  url : Str
  signatureStr : Option Str
  decorators : List Str
  defined_in : Option FileLocation
deriving DecidableEq, Repr

structure Methods where
  info_dict : Dict MethodInfo
  constructor : Option MethodInfo
deriving DecidableEq, Repr

/-- `split_methods(methods)`: build the short-name dictionary, pop
`__init__` and `__new__`, and prefer `__init__` over `__new__` as the
constructor. -/
def split_methods (methods : List MethodInfo) : Methods :=
  let d := dFromList (methods.map (fun m => (m.short_name, m)))
  let p1 := dPop d "__init__".data
  let p2 := dPop p1.2 "__new__".data
  let ctor := match p1.1 with
    | some m => some m
    | none => p2.1
  ⟨p2.2, ctor⟩

/-- `_method_sort(method_name)`: `(1, name)` for names starting with `__`,
`(2, name)` for other names starting with `_`, `(-1, name)` otherwise. -/
def method_sort (n : Str) : Int × Str :=
  if "__".data.isPrefixOf n then (1, n)
  else if "_".data.isPrefixOf n then (2, n)
  else (-1, n)

/-- Python `<` on strings: lexicographic comparison by code point. -/
def strLt : Str → Str → Bool
  | [], [] => false
  | [], _ :: _ => true
  | _ :: _, [] => false
  | a :: as, b :: bs => if a = b then strLt as bs else decide (a < b)

/-- Comparison of `_method_sort` keys (Python tuple comparison). -/
def methodKeyLe (a b : Str) : Bool :=
  let ka := method_sort a
  let kb := method_sort b
  if ka.1 = kb.1 then (ka.2 = kb.2) || strLt ka.2 kb.2 else decide (ka.1 < kb.1)

/-- `sorted(methods.info_dict, key=_method_sort)` in `_build_class_page`:
the order in which the Methods section renders method names. -/
def methodSectionOrder (methods : List MethodInfo) : List Str :=
  List.insertionSort (fun a b => methodKeyLe a b)
    (dKeys (split_methods methods).info_dict)

/-! ## `generate_signature` and `FormatArguments` (parser.py)

The runtime-introspection results (`inspect.signature`, the AST
type-annotation/default extraction, `parser_config.reverse_index`) are the
inputs of the embedding; the argument classification and rendering are
translated from the source. -/

/-- Python runtime values as far as the formatter observes them: an `id`
identity is replaced by the value itself (the `reverse_index` input is a
function on values), and `repr` text is carried by the value. -/
inductive PyVal : Type where
  | intV (n : Int)
  | strV (s : Str)
  | objV (reprText : Str)
deriving DecidableEq, Repr

/-- `repr(value)`. -/
def pyRepr : PyVal → Str
  | .intV n => (toString n).data
  | .strV s => '\'' :: (s ++ ['\''])
  | .objV r => r

/-- `repr(default)` where a missing default is `inspect.Parameter.empty`. -/
def pyReprOpt : Option PyVal → Str
  | some v => pyRepr v
  | none => "<class 'inspect._empty'>".data

/-- `html.escape(s)` (quote=True). -/
def htmlEscape (s : Str) : Str :=
  s.flatMap fun c =>
    if c = '&' then "&amp;".data
    else if c = '<' then "&lt;".data
    else if c = '>' then "&gt;".data
    else if c = '"' then "&quot;".data
    else if c = '\'' then "&#x27;".data
    else [c]

def isLowerHex (c : Char) : Bool := c.isDigit || ('a' ≤ c && c ≤ 'f')

/-- Tail of `_OBJECT_MEMORY_ADDRESS_RE` after the greedy `.+` group:
`" object at 0x"` + one or more lowercase hex digits + `>`. -/
def addrSuffix (suf : Str) : Option Str :=
  if " object at 0x".data.isPrefixOf suf then
    let afterLit := suf.drop 13
    let h := afterLit.takeWhile isLowerHex
    match h, afterLit.dropWhile isLowerHex with
    | _ :: _, '>' :: r => some r
    | _, _ => none
  else none

/-- Greedy match of `(?P<type>.+) object at 0x[\da-f]+>` (the part after
the opening `<`): the longest newline-free non-empty `type` group whose
remainder matches `addrSuffix`. -/
def addrGreedy : Str → Option (Str × Str)
  | [] => none
  | c :: rest =>
    if c = '\n' then none
    else
      match addrGreedy rest with
      | some (t, r) => some (c :: t, r)
      | none =>
        match addrSuffix rest with
        | some r => some ([c], r)
        | none => none

/-- `_OBJECT_MEMORY_ADDRESS_RE.sub(r"<\g<type>>", s)`: strip object memory
addresses from a `repr`. -/
def stripAddrsF : Nat → Str → Str
  | 0, cs => cs
  | _ + 1, [] => []
  | f + 1, c :: xs =>
    if c = '<' then
      match addrGreedy xs with
      | some (t, r) => '<' :: (t ++ '>' :: stripAddrsF f r)
      | none => '<' :: stripAddrsF f xs
    else c :: stripAddrsF f xs

def stripAddrs (cs : Str) : Str := stripAddrsF cs.length cs

/-- `FormatArguments._INTERNAL_NAMES` in dict order. -/
def INTERNAL_NAMES : List (Str × Str) :=
  [("ops.GraphKeys".data, "tf.GraphKeys".data),
   ("_ops.GraphKeys".data, "tf.GraphKeys".data),
   ("init_ops.zeros_initializer".data, "tf.zeros_initializer".data),
   ("init_ops.ones_initializer".data, "tf.ones_initializer".data),
   ("saver_pb2.SaverDef".data, "tf.train.SaverDef".data)]

/-- A match of `[a-zA-Z_]\w*` at the head of the input. -/
def matchIdent : Str → Option (Str × Str)
  | [] => none
  | c :: r =>
    if c.isAlpha || c = '_' then
      some (c :: r.takeWhile isWordChar, r.dropWhile isWordChar)
    else none

/-- Greedy repetition of `(.[a-zA-Z_]\w*)` (the dot of the source pattern
is unescaped, hence any character): returns the consumed text and rest. -/
def fngLoopF : Nat → Str → Str × Str
  | 0, cs => ([], cs)
  | _ + 1, [] => ([], [])
  | f + 1, c :: r =>
    match matchIdent r with
    | some (idt, rest) =>
      let p := fngLoopF f rest
      (c :: (idt ++ p.1), p.2)
    | none => ([], c :: r)

/-- `re.match` of `^{id}(.{id})+` (at least one repetition): the matched
prefix, if any. -/
def fullNameMatch (cs : Str) : Option Str :=
  match matchIdent cs with
  | none => none
  | some (idt, rest) =>
    let p := fngLoopF rest.length rest
    if p.1 = [] then none else some (idt ++ p.1)

/-- `FormatArguments._replace_internal_names(default_text)`. -/
def replaceInternalNames (t : Str) : Str :=
  match fullNameMatch t with
  | none => t
  | some m =>
    match INTERNAL_NAMES.find? (fun kv => kv.1.isPrefixOf m) with
    | some (internal, pub) => pub ++ t.drop internal.length
    | none => t

inductive ParamKind : Type where
  | positionalOnly
  | positionalOrKeyword
  | varPositional
  | keywordOnly
  | varKeyword
deriving DecidableEq, Repr

/-- One `inspect.Parameter`: a missing default is
`inspect.Parameter.empty`, modelled as `none`. -/
structure Param where
  name : Str
  kind : ParamKind
  default : Option PyVal
deriving DecidableEq, Repr

/-- `FormatArguments.format_args(args)`. -/
def format_args (anno : Dict Str) (args : List Param) : List Str :=
  args.map fun a =>
    match dLookup anno a.name with
    | some t => a.name ++ ": ".data ++ t
    | none => a.name

/-- `FormatArguments.format_kwargs(kwargs, ast_defaults)`. -/
def format_kwargs (anno : Dict Str) (reverse_index : PyVal → Option Str)
    (kwargs : List Param) (ast_defaults : List (Option Str)) : List Str :=
  let ds := ast_defaults ++ List.replicate (kwargs.length - ast_defaults.length) none
  (kwargs.zip ds).flatMap fun kd =>
    let kw := kd.1
    let emit : Str → List Str := fun t =>
      let t' := htmlEscape t
      match dLookup anno kw.name with
      | some ty => [kw.name ++ ": ".data ++ ty ++ " = ".data ++ t']
      | none => [kw.name ++ "=".data ++ t']
    match kw.default.bind reverse_index with
    | some t => emit t
    | none =>
      match kd.2 with
      | some t => emit (if t ≠ pyReprOpt kw.default then replaceInternalNames t else t)
      | none =>
        match kw.default with
        | none => format_args anno [kw]
        | some v => emit (stripAddrs (pyRepr v))

/-- `_SignatureComponents` (the renderable pieces; `__str__` is not needed
for the properties below and is modelled separately as carried text). -/
structure SignatureComponents where
  arguments : List Str
  arguments_typehint_exists : Bool
  return_typehint_exists : Bool
  return_type : Str
deriving DecidableEq, Repr

/-- `list.insert(i, x)` (appends when `i` exceeds the length). -/
def pyInsert {α : Type} (i : Nat) (x : α) (l : List α) : List α :=
  l.take i ++ x :: l.drop i

/-- `generate_signature(func, parser_config, func_full_name)`, taking the
introspection results as inputs: `sig_values` is
`inspect.signature(func).parameters.values()` (empty when introspection
fails), `return_anno_truthy` is `bool(return_anno and return_anno is not
sig.empty)`, the `type_annotations` dict and the two typehint flags come
from the AST type-annotation visitor, the two ast-default lists from
`ASTDefaultValueExtractor` (already filtered of `None` entries, with `none`
standing for padding), and `reverse_index` is the traverser's object-id
index. -/
def generate_signature (sig_values : List Param) (return_anno_truthy : Bool)
    (type_annotations : Dict Str)
    (arguments_typehint_exists return_typehint_exists : Bool)
    (ast_args_defaults ast_kw_only_defaults : List (Option Str))
    (reverse_index : PyVal → Option Str) : SignatureComponents :=
  let en := sig_values.enum
  let en' := en.filter fun pi =>
    !(pi.1 = 0 && (pi.2.name = "self".data || pi.2.name = "cls".data ||
        pi.2.name = "_cls".data))
  let pos_only_args := (en'.filter fun pi => pi.2.kind = .positionalOnly).map (·.2)
  let args := (en'.filter fun pi =>
    pi.2.default = none && pi.2.kind = .positionalOrKeyword).map (·.2)
  let kwargs := (en'.filter fun pi =>
    !(pi.2.default = none) && pi.2.kind = .positionalOrKeyword).map (·.2)
  let only_kwargs := (en'.filter fun pi => pi.2.kind = .keywordOnly).map (·.2)
  let varargs := (en'.filter fun pi => pi.2.kind = .varPositional).getLast?
  let varkwargs := ((en'.filter fun pi => pi.2.kind = .varKeyword).map (·.2)).getLast?
  let l0 : List Str :=
    (if pos_only_args ≠ [] then format_args type_annotations pos_only_args ++ ["/".data]
     else []) ++
    (if args ≠ [] then format_args type_annotations args else []) ++
    (if kwargs ≠ [] then
      format_kwargs type_annotations reverse_index kwargs ast_args_defaults
     else []) ++
    (if only_kwargs ≠ [] then
      (if varargs = none then ["*".data] else []) ++
        format_kwargs type_annotations reverse_index only_kwargs ast_kw_only_defaults
     else [])
  let l1 : List Str :=
    match varargs with
    | some pi => pyInsert pi.1 ('*' :: pi.2.name) l0
    | none => l0
  let l2 : List Str :=
    match varkwargs with
    | some p => l1 ++ ["**".data ++ p.name]
    | none => l1
  let return_type : Str :=
    if return_anno_truthy then
      match dLookup type_annotations "return".data with
      | some t => if t ≠ [] then t else "None".data
      | none => "None".data
    else "None".data
  ⟨l2, arguments_typehint_exists, return_typehint_exists, return_type⟩

/-! ## `ClassPageInfo._add_property` and `ClassPageInfo._augment_attributes`
(parser.py) -/

/-- `str.strip()`. -/
def pyStrip (s : Str) : Str :=
  ((s.dropWhile isPySpace).reverse.dropWhile isPySpace).reverse

/-- Lines of a text under `str.split("\n")` (docstring text carries no
other line separators at this point of the pipeline). -/
def linesOf (s : Str) : List Str := splitOnC '\n' s

def commonPfx : Str → Str → Str
  | [], _ => []
  | _, [] => []
  | x :: xs, y :: ys => if x = y then x :: commonPfx xs ys else []

/-- `textwrap.dedent(s)`: remove the longest common leading-whitespace
margin of all non-blank lines. -/
def pyDedent (s : Str) : Str :=
  let ls := linesOf s
  let inds := (ls.filter (fun l => l.any (fun c => !(isPySpace c)))).map
    (fun l => l.takeWhile isPySpace)
  match inds with
  | [] => s
  | i :: is =>
    let margin := is.foldl commonPfx i
    if margin = [] then s
    else joinC '\n' (ls.map (fun l =>
      if margin.isPrefixOf l then l.drop margin.length else l))

/-- `textwrap.indent(s, "  ")`: prefix every line that holds a
non-whitespace character with two spaces. -/
def indentTwo (s : Str) : Str :=
  joinC '\n' ((linesOf s).map (fun l =>
    if l.any (fun c => !(isPySpace c)) then ' ' :: ' ' :: l else l))

/-- `re.match("Alias for field number [0-9]+", brief)`. -/
def aliasFieldMatch (brief : Str) : Bool :=
  "Alias for field number ".data.isPrefixOf brief &&
    (match (brief.drop 23).head? with
     | some c => c.isDigit
     | none => false)

/-- The per-class accumulation state consulted by the attribute merge:
`_namedtuplefields` (keys inserted at construction time with `None`
values, later possibly holding a property description) and
`_properties`. -/
structure ClassAttrState where
  namedtuplefields : Dict (Option Str)
  properties : Dict Str
deriving DecidableEq, Repr

/-- `ClassPageInfo._add_property(member_info)`: hide `Alias for field
number N` docstrings, flatten the non-`TitleBlock` docstring parts into an
indented description, and record it under `_namedtuplefields` when the
short name is a named-tuple field, under `_properties` otherwise. -/
def add_property (st : ClassAttrState) (short_name : Str) (doc : DocstringInfo) :
    ClassAttrState :=
  let doc' := if aliasFieldMatch doc.brief then
    { doc with brief := [], docstring_parts := [] } else doc
  let new_parts := doc'.brief ::
    doc'.docstring_parts.flatMap (fun p =>
      match p with
      | .text s => [s]
      | .block _ => [])
  let new_parts' := (new_parts.map indentTwo) ++ [[]]
  let desc := joinC '\n' new_parts'
  if (dLookup st.namedtuplefields short_name).isSome then
    { st with namedtuplefields := dInsert st.namedtuplefields (short_name, some desc) }
  else
    { st with properties := dInsert st.properties (short_name, desc) }

/-- `ClassPageInfo._dataclass_fields()`. -/
def dataclass_fields (names : List Str) : List (Str × Str) :=
  (names.filter (fun n => !("_".data.isPrefixOf n))).map
    (fun n => (n, "Dataclass field".data))

/-- Whether a docstring part is a `TitleBlock` whose title starts with
`Attr`. -/
def isAttrBlock : DocPart → Bool
  | .block b => "Attr".data.isPrefixOf b.title
  | .text _ => false

/-- The items of the first docstring `TitleBlock` whose title starts with
`Attr` (the `raw_attrs` of `_augment_attributes`; empty when absent). -/
def declaredAttrItems (docstring_parts : List DocPart) : List (Str × Option Str) :=
  match docstring_parts.findIdx? isAttrBlock with
  | some i =>
    match docstring_parts.get? i with
    | some (.block b) => b.items
    | _ => []
  | none => []

/-- The merge at the heart of `_augment_attributes`:
`attrs.update(self._namedtuplefields)`, `attrs.update(raw_attrs)`, then
`attrs.setdefault(...)` for every property description and (for a
dataclass) every dataclass-field placeholder. -/
def mergedAttrs (st : ClassAttrState) (isDataclass : Bool)
    (dcFieldNames : List Str) (raw : List (Str × Option Str)) :
    Dict (Option Str) :=
  let attrs0 := dUpdate (dUpdate dNil st.namedtuplefields) raw
  let attrs1 := st.properties.foldl (fun d kv => dSetdefault d kv.1 (some kv.2)) attrs0
  if isDataclass then
    (dataclass_fields dcFieldNames).foldl
      (fun d kv => dSetdefault d kv.1 (some kv.2)) attrs1
  else attrs1

/-- `ClassPageInfo._augment_attributes(docstring_parts)`: merge the
named-tuple fields, the docstring's declared `Attr*` block, the property
descriptions and the dataclass-field placeholders into one synthesized
`Attributes` block; delete the declared block from the docstring parts
(when no block was declared, a placeholder is appended and deleted again,
leaving the parts unchanged).  Returns the synthesized block (or `none`
when the merge is empty) and the remaining parts. -/
def augment_attributes (st : ClassAttrState) (isDataclass : Bool)
    (dcFieldNames : List Str) (docstring_parts : List DocPart) :
    Option TitleBlock × List DocPart :=
  let raw := dFromList (declaredAttrItems docstring_parts)
  let parts' :=
    match docstring_parts.findIdx? isAttrBlock with
    | some i => docstring_parts.eraseIdx i
    | none => docstring_parts
  let attrs2 := mergedAttrs st isDataclass dcFieldNames raw
  let block := if attrs2 ≠ [] then
    some (TitleBlock.mk "Attributes".data [] attrs2) else none
  (block, parts')

/-! ## The Markdown renderer (pretty_docs.py) -/

/-- `MemberInfo` as read by the renderer. -/
structure MemberInfo where
  short_name : Str
  full_name : Str
  doc : DocstringInfo
  url : Str
deriving DecidableEq, Repr

structure FunctionPageInfo where
  full_name : Str
  defined_in : Option FileLocation
  doc : DocstringInfo
  signatureStr : Option Str
  decorators : List Str
  custom_content : Option Str
deriving DecidableEq, Repr

structure ClassPageInfo where
  full_name : Str
  defined_in : Option FileLocation
  doc : DocstringInfo
  bases : List MemberInfo
  methods : List MethodInfo
  classes : List MemberInfo
  other_members : List MemberInfo
  attr_block : Option TitleBlock
  custom_content : Option Str
deriving DecidableEq, Repr

structure ModulePageInfo where
  full_name : Str
  defined_in : Option FileLocation
  doc : DocstringInfo
  modules : List MemberInfo
  classes : List MemberInfo
  functions : List MemberInfo
  other_members : List MemberInfo
  custom_content : Option Str
deriving DecidableEq, Repr

def lastDotSeg (s : Str) : Str := (splitOnC '.' s).getLastD []

def lowerStr (s : Str) : Str := s.map Char.toLower

def containsSub (pat s : Str) : Bool := s.tails.any (fun t => pat.isPrefixOf t)

def strLe (a b : Str) : Bool := (a = b) || strLt a b

/-- `parser.TABLE_TEMPLATE` after `textwrap.dedent`, with the three
placeholders substituted. -/
def TABLE_TEMPLATE (title text items : Str) : Str :=
  "\n<!-- Tabular view -->\n<table>\n<tr><th>".data ++ title ++
    "</th></tr>\n".data ++ text ++ "\n".data ++ items ++ "\n</table>\n".data

/-- `parser.ITEMS_TEMPLATE` after `textwrap.dedent`, substituted. -/
def ITEMS_TEMPLATE (name anchor description : Str) : Str :=
  "<tr>\n<td>\n".data ++ name ++ anchor ++ "\n</td>\n<td>\n".data ++
    description ++ "\n</td>\n</tr>".data

/-- `parser.TEXT_TEMPLATE` after `textwrap.dedent`, substituted. -/
def TEXT_TEMPLATE (text : Str) : Str :=
  "<tr>\n<td>\n".data ++ text ++ "\n</td>\n</tr>".data

/-- One line under `TitleBlock._INDENTATION_REMOVAL_RE.sub(r"\2", ...)`:
an empty line stays, an all-space line keeps one space, any other line
loses its leading spaces. -/
def stripLineIndent (l : Str) : Str :=
  if l = [] then []
  else if l.all (fun c => c = ' ') then [' ']
  else l.dropWhile (fun c => c = ' ')

def stripIndentLines (s : Str) : Str :=
  joinC '\n' ((linesOf s).map stripLineIndent)

/-- `title_template.format(title=...)` for the templates the renderer
passes (the literal placeholder is the only format field used). -/
def fmtTitle : Str → Str → Str
  | [], _ => []
  | '\x7b' :: 't' :: 'i' :: 't' :: 'l' :: 'e' :: '\x7d' :: r, ti =>
    ti ++ fmtTitle r ti
  | c :: r, ti => c :: fmtTitle r ti

/-- `TitleBlock.table_view(title_template)`. -/
def table_view (tt : Option Str) (b : TitleBlock) : Str :=
  let title := match tt with
    | some t => fmtTitle t b.title
    | none => b.title
  let text := pyStrip b.text
  let text' := if text ≠ [] then stripIndentLines (TEXT_TEMPLATE text) else text
  let items := b.items.flatMap fun nd =>
    let n := if nd.1 = [] then [] else pyStrip nd.1
    let d := pyStrip (nd.2.getD [])
    if d = [] then []
    else [stripIndentLines
      (ITEMS_TEMPLATE ("<code>".data ++ n ++ "</code>".data) [] d)]
  "\n".data ++ TABLE_TEMPLATE title text' items.flatten ++ "\n".data

/-- `TitleBlock.__str__` (the list view).  `description.strip()` on a
`None` description would raise in Python; the renderer only reaches this
code with parsed (string-valued) items, and the model totalises it with
the empty string. -/
def blockStr (b : TitleBlock) : Str :=
  "\n\n#### ".data ++ b.title ++ ":\n".data ++ pyDedent b.text ++ "\n".data ++
    (b.items.flatMap fun nd =>
      let d := pyStrip (nd.2.getD [])
      if d = [] then "* <b>`".data ++ nd.1 ++ "`</b>\n".data
      else "* <b>`".data ++ nd.1 ++ "`</b>: ".data ++ d ++ "\n".data)

def TABLE_ITEMS : List Str :=
  ["arg".data, "return".data, "raise".data, "attr".data, "yield".data]

/-- `_format_docstring(item, table_title_template)`. -/
def format_docstring (tt : Option Str) : DocPart → Str
  | .text s => s
  | .block b =>
    if TABLE_ITEMS.any (fun p => p.isPrefixOf (lowerStr b.title)) then
      table_view tt b
    else blockStr b

/-- `_small_source_link(location)`. -/
def small_source_link (loc : FileLocation) : Str :=
  match loc.url with
  | some u => if u = [] then [] else "[View source](".data ++ u ++ ")\n\n".data
  | none => []

/-- The `cta-button` link template of `_top_source_link`. -/
def TABLE_LINK (url : Str) : Str :=
  "\x7b\x7b< cta-button githubLink=\"".data ++ url ++ "\" >\x7d\x7d".data

/-- `_top_source_link(location)` (with `TABLE_HEADER = ""`). -/
def top_source_link (loc : Option FileLocation) : Str :=
  let cf : Str × Str :=
    match loc with
    | some l =>
      match l.url with
      | some u =>
        if u = [] then ([], [])
        else if containsSub "github.com".data u then (TABLE_LINK u, [])
        else ([], small_source_link l)
      | none => ([], [])
    | none => ([], [])
  "\n".data ++ "\n".data ++ cf.1 ++ "\n\n".data ++ cf.2

def DECORATOR_ALLOWLIST : List Str :=
  ["classmethod".data, "staticmethod".data, "tf_contextlib.contextmanager".data,
   "contextlib.contextmanager".data, "tf.function".data, "types.method".data,
   "abc.abstractmethod".data]

/-- The special-cased `tf.range` signature block (dedented literal). -/
def TFRANGE_BLOCK : Str :=
  ("\n```python\ntf.range(limit, delta=1, dtype=None, name=\"range\")\n" ++
   "tf.range(start, limit, delta=1, dtype=None, name=\"range\")\n```\n").data

/-- `_build_signature(obj_info, obj_name, type_alias=False)`:
`full_name`/`signatureStr`/`decorators` are the fields of `obj_info` it
reads (`str(obj_info.signature)` is the carried signature text, `"None"`
when absent). -/
def build_signature (full_name : Str) (sigStr : Option Str)
    (decorators : List Str) (obj_name : Str) : Str :=
  if full_name = "tf.range".data then TFRANGE_BLOCK
  else
    "```python\n".data ++
      (decorators.filter (fun d => DECORATOR_ALLOWLIST.contains d)).flatMap
        (fun d => '@' :: (d ++ ['\n'])) ++
      lastDotSeg obj_name ++ (sigStr.getD "None".data) ++ "\n".data ++
      "```\n\n".data

/-- `_build_method_section(method_info)` (heading level 3). -/
def build_method_section (m : MethodInfo) : Str :=
  "### `".data ++ m.short_name ++ "`\n\n".data ++
    (match m.defined_in with
     | some l => small_source_link l
     | none => []) ++
    (match m.signatureStr with
     | some _ => build_signature m.full_name m.signatureStr m.decorators m.short_name
     | none => []) ++
    m.doc.brief ++ "\n".data ++
    (m.doc.docstring_parts.map (format_docstring none)).flatten ++
    "\n\n".data

/-- `_other_members(other_members, title)`. -/
def other_members_section (oms : List MemberInfo) (title : Str) : Str :=
  let items := oms.flatMap fun om =>
    let desc := joinC '\n' (om.doc.brief ::
      om.doc.docstring_parts.map (fun p =>
        match p with
        | .block b => blockStr b
        | .text s => s))
    [ITEMS_TEMPLATE ('\x60' :: (om.short_name ++ ['\x60']))
      ("<a id=\"".data ++ om.short_name ++ "\"></a>".data) desc]
  "\n".data ++ TABLE_TEMPLATE title [] items.flatten ++ "\n".data

/-- `merge_blocks(class_page_info, ctor_info)` on the docstring parts:
record the titles already present in the class docstring (`Args*` and
`Arguments*` normalised to `Arg`), then lift the constructor's
`Args`/`Arguments`/`Raises` blocks that are not already present. -/
def merge_blocks (class_doc ctor_doc : List DocPart) : List DocPart :=
  let existing := class_doc.flatMap fun p =>
    match p with
    | .block b =>
      [if "Args".data.isPrefixOf b.title || "Arguments".data.isPrefixOf b.title
       then "Arg".data else b.title]
    | .text _ => []
  let lifted := ctor_doc.filter fun p =>
    match p with
    | .block b =>
      ("Args".data.isPrefixOf b.title || "Arguments".data.isPrefixOf b.title ||
        "Raises".data.isPrefixOf b.title) &&
      !(existing.any (fun e => e.isPrefixOf b.title))
    | .text _ => false
  class_doc ++ lifted

/-- `merge_class_and_constructor_docstring(class_page_info, ctor_info)`. -/
def merge_class_and_constructor_docstring (p : ClassPageInfo)
    (ctor : Option MethodInfo) : List Str :=
  let class_doc := match ctor with
    | none => p.doc.docstring_parts
    | some c => merge_blocks p.doc.docstring_parts c.doc.docstring_parts
  class_doc.map (format_docstring (some "\x7btitle\x7d".data))

def headerOf (full_name : Str) : Str :=
  "# ".data ++ lastDotSeg full_name ++ "\n\n".data

/-- `_build_class_page(page_info)`. -/
def build_class_page (p : ClassPageInfo) : Str :=
  let methods := split_methods p.methods
  let pre :=
    headerOf p.full_name ++
    top_source_link p.defined_in ++ "\n\n".data ++
    p.doc.brief ++ "\n\n".data ++
    (if p.bases ≠ [] then
      "Inherits From: ".data ++
        (List.intercalate ", ".data (p.bases.map (fun b =>
          "[`".data ++ b.short_name ++ "`](".data ++ b.url ++ ")".data))) ++
        "\n\n".data
     else []) ++
    (match methods.constructor with
     | some c =>
       build_signature c.full_name c.signatureStr c.decorators p.full_name ++
         "\n\n".data
     | none => []) ++
    (merge_class_and_constructor_docstring p methods.constructor).flatten ++
    "\n\n".data
  match p.custom_content with
  | some cc => pre ++ cc
  | none =>
    pre ++
    (match p.attr_block with
     | some b =>
       format_docstring (some "\x7btitle\x7d".data) (.block b) ++ "\n\n".data
     | none => []) ++
    (if p.classes ≠ [] then
      "## Child Classes\n".data ++
        (List.insertionSort (fun a b => strLe a b)
          (p.classes.map (fun ci =>
            "[`class ".data ++ ci.short_name ++ "`](".data ++ ci.url ++
              ")\n\n".data))).flatten
     else []) ++
    (if methods.info_dict ≠ [] then
      "## Methods\n\n".data ++
        ((methodSectionOrder p.methods).flatMap (fun n =>
          match dLookup methods.info_dict n with
          | some m => build_method_section m
          | none => [])) ++
        "\n\n".data
     else []) ++
    (if p.other_members ≠ [] then
      other_members_section p.other_members "Class Variables".data
     else [])

/-- `_build_function_page(page_info)` (custom content, when present, is
appended at the end; the function page has no structural sections after
it). -/
def build_function_page (p : FunctionPageInfo) : Str :=
  headerOf p.full_name ++
  top_source_link p.defined_in ++ "\n\n".data ++
  p.doc.brief ++ "\n\n".data ++
  (match p.signatureStr with
   | some _ =>
     build_signature p.full_name p.signatureStr p.decorators p.full_name ++
       "\n\n".data
   | none => []) ++
  (p.doc.docstring_parts.map (format_docstring (some "\x7btitle\x7d".data))).flatten ++
  (p.custom_content.getD [])

/-- `".md"` removal (`str.replace(".md", "")`, leftmost, non-overlapping). -/
def removeMd : Str → Str
  | [] => []
  | '.' :: 'm' :: 'd' :: r => removeMd r
  | c :: r => c :: removeMd r

/-- `_build_module_parts(module_parts, template, module)`. -/
def build_module_parts (render : Str → Str → Str) (module : Bool)
    (items : List MemberInfo) : Str :=
  (items.flatMap fun it =>
    let cu0 := "./".data ++ lowerStr ((splitOnC '/' it.url).getLastD [])
    let cu := if module then removeMd cu0 else cu0
    render it.short_name cu ++
      (if it.doc.brief ≠ [] then ": ".data ++ it.doc.brief else []) ++
      "\n\n".data)

def tmplModule (n u : Str) : Str :=
  "[`".data ++ n ++ "`](".data ++ u ++ ") module".data

def tmplClass (n u : Str) : Str :=
  "[`class ".data ++ n ++ "`](".data ++ u ++ ")".data

def tmplFunction (n u : Str) : Str :=
  "[`".data ++ n ++ "(...)`](".data ++ u ++ ")".data

/-- `_build_module_page(page_info)`. -/
def build_module_page (p : ModulePageInfo) : Str :=
  let pre :=
    headerOf p.full_name ++
    "<!-- Insert buttons and diff -->\n".data ++
    top_source_link p.defined_in ++ "\n\n".data ++
    p.doc.brief ++ "\n\n".data ++
    (p.doc.docstring_parts.map (format_docstring none)).flatten ++
    "\n\n".data
  match p.custom_content with
  | some cc => pre ++ cc
  | none =>
    pre ++
    (if p.modules ≠ [] then
      "## Modules\n\n".data ++ build_module_parts tmplModule true p.modules
     else []) ++
    (if p.classes ≠ [] then
      "## Classes\n\n".data ++ build_module_parts tmplClass false p.classes
     else []) ++
    (if p.functions ≠ [] then
      "## Functions\n\n".data ++ build_module_parts tmplFunction false p.functions
     else []) ++
    (if p.other_members ≠ [] then
      other_members_section p.other_members "Other Members".data
     else [])

/-! ## Page prefixes for the custom-content contract -/

/-- Everything `_build_class_page` emits before the custom-content check:
header, source link, brief, inherits-from line, constructor signature and
the merged class/constructor docstring. -/
def classPagePreCustom (p : ClassPageInfo) : Str :=
  let methods := split_methods p.methods
  headerOf p.full_name ++
  top_source_link p.defined_in ++ "\n\n".data ++
  p.doc.brief ++ "\n\n".data ++
  (if p.bases ≠ [] then
    "Inherits From: ".data ++
      (List.intercalate ", ".data (p.bases.map (fun b =>
        "[`".data ++ b.short_name ++ "`](".data ++ b.url ++ ")".data))) ++
      "\n\n".data
   else []) ++
  (match methods.constructor with
   | some c =>
     build_signature c.full_name c.signatureStr c.decorators p.full_name ++
       "\n\n".data
   | none => []) ++
  (merge_class_and_constructor_docstring p methods.constructor).flatten ++
  "\n\n".data

/-- Everything `_build_module_page` emits before the custom-content check:
header, buttons comment, source link, brief and the rendered docstring
body. -/
def modulePagePreCustom (p : ModulePageInfo) : Str :=
  headerOf p.full_name ++
  "<!-- Insert buttons and diff -->\n".data ++
  top_source_link p.defined_in ++ "\n\n".data ++
  p.doc.brief ++ "\n\n".data ++
  (p.doc.docstring_parts.map (format_docstring none)).flatten ++
  "\n\n".data

/-- Everything `_build_function_page` emits before appending the custom
content: header, source link, brief, signature block and the rendered
docstring body. -/
def functionPageBody (p : FunctionPageInfo) : Str :=
  headerOf p.full_name ++
  top_source_link p.defined_in ++ "\n\n".data ++
  p.doc.brief ++ "\n\n".data ++
  (match p.signatureStr with
   | some _ =>
     build_signature p.full_name p.signatureStr p.decorators p.full_name ++
       "\n\n".data
   | none => []) ++
  (p.doc.docstring_parts.map (format_docstring (some "\x7btitle\x7d".data))).flatten

/-- Modelled from the spec: the claimed page shape under custom content —
"only the header/name/source-link/brief preamble followed by that custom
content verbatim" — for a module page (the static buttons comment is part
of the header). -/
def specCustomModulePage (p : ModulePageInfo) (custom : Str) : Str :=
  headerOf p.full_name ++
  "<!-- Insert buttons and diff -->\n".data ++
  top_source_link p.defined_in ++ "\n\n".data ++
  p.doc.brief ++ "\n\n".data ++
  custom

/-- A concrete module page with custom content and a non-empty docstring
body. -/
def cexModulePage : ModulePageInfo :=
  { full_name := "m".data
    defined_in := none
    doc := { brief := "Brief.".data, docstring_parts := [.text "Body text.".data] }
    modules := []
    classes := []
    functions := []
    other_members := []
    custom_content := some "CUSTOM".data }

/-- A trivial docstring. -/
def emptyDoc : DocstringInfo := { brief := [], docstring_parts := [] }

/-- A concrete resolver: `tf.A.m` is a fragment, `tf.B` is an alias of
`tf.A`. -/
def cexResolver : RefResolver :=
  { duplicate_of := [("tf.B".data, "tf.A".data)]
    is_fragment := [("tf".data, false), ("tf.A".data, false),
      ("tf.A.m".data, true)] }

/-- A method carrying only a name (the renderer fields irrelevant to
ordering are empty). -/
def mkMeth (n : String) : MethodInfo :=
  { short_name := n.data, full_name := n.data, doc := emptyDoc, url := [],
    signatureStr := none, decorators := [], defined_in := none }

/-!
# Theorems
-/

/-! ## Claim C9: write-once `PageInfo` fields -/

/-- Claim C9: for every `PageInfo`, each of the settable fields `doc`,
`defined_in` and `aliases` may be set at most once: after a successful
first call, a second call to the setter fails with an already-set
(`AssertionError`) error, and the field retains the value written by the
first call. -/
theorem pageinfo_fields_write_once (p : PageInfo) :
    (∀ v q, p.set_defined_in v = .ok q →
      q.defined_in = some v ∧ ∀ v', ∃ e, q.set_defined_in v' = .error e) ∧
    (∀ v q, p.set_aliases v = .ok q →
      q.aliases = some v ∧ ∀ v', ∃ e, q.set_aliases v' = .error e) ∧
    (∀ v q, p.set_doc v = .ok q →
      q.doc = some v ∧ ∀ v', ∃ e, q.set_doc v' = .error e) := by
  refine ⟨?_, ?_, ?_⟩ <;> intro v q h
  · unfold PageInfo.set_defined_in at h
    split at h
    · exact absurd h (by simp)
    · obtain rfl : ({ p with defined_in := some v } : PageInfo) = q := by
        simpa using h
      exact ⟨rfl, fun v' => ⟨"AssertionError".data, by simp [PageInfo.set_defined_in]⟩⟩
  · unfold PageInfo.set_aliases at h
    split at h
    · exact absurd h (by simp)
    · obtain rfl : ({ p with aliases := some v } : PageInfo) = q := by
        simpa using h
      exact ⟨rfl, fun v' => ⟨"AssertionError".data, by simp [PageInfo.set_aliases]⟩⟩
  · unfold PageInfo.set_doc at h
    split at h
    · exact absurd h (by simp)
    · obtain rfl : ({ p with doc := some v } : PageInfo) = q := by
        simpa using h
      exact ⟨rfl, fun v' => ⟨"AssertionError".data, by simp [PageInfo.set_doc]⟩⟩

/-- Witness for C9 at a concrete page: a fresh page accepts the first
`set_defined_in`, and the updated page rejects a second one while keeping
the first value. -/
theorem pageinfo_fields_write_once_witness :
    ({ full_name := "tf.A".data, defined_in := some ⟨some "u".data⟩,
       aliases := none, doc := none : PageInfo }).defined_in =
        some ⟨some "u".data⟩ ∧
    ∀ v', ∃ e,
      ({ full_name := "tf.A".data, defined_in := some ⟨some "u".data⟩,
         aliases := none, doc := none : PageInfo }).set_defined_in v' =
        .error e :=
  (pageinfo_fields_write_once
    { full_name := "tf.A".data, defined_in := none, aliases := none,
      doc := none }).1 ⟨some "u".data⟩ _ rfl

/-! ## Claim C6: signature argument order -/

/-- Claim C6: for a function defined with parameters
`(a, b=1, *args, c, **kwargs)`, `generate_signature` returns the argument
list `["a", "b=1", "*args", "c", "**kwargs"]`.  The introspection of such
a function yields the five parameters below with their kinds, no type
annotations, and (when the AST pass succeeds) the literal default text
`"1"` for `b` and no kw-only default texts (`kw_defaults` holds only a
`None` placeholder for `c`, which the extractor drops).  The same list is
produced when the AST pass fails (the default falls back to `repr(1)`). -/
theorem generate_signature_simple_order :
    (generate_signature
        [⟨"a".data, .positionalOrKeyword, none⟩,
         ⟨"b".data, .positionalOrKeyword, some (.intV 1)⟩,
         ⟨"args".data, .varPositional, none⟩,
         ⟨"c".data, .keywordOnly, none⟩,
         ⟨"kwargs".data, .varKeyword, none⟩]
        false [] false false [some "1".data] [] (fun _ => none)).arguments =
      ["a".data, "b=1".data, "*args".data, "c".data, "**kwargs".data] ∧
    (generate_signature
        [⟨"a".data, .positionalOrKeyword, none⟩,
         ⟨"b".data, .positionalOrKeyword, some (.intV 1)⟩,
         ⟨"args".data, .varPositional, none⟩,
         ⟨"c".data, .keywordOnly, none⟩,
         ⟨"kwargs".data, .varKeyword, none⟩]
        false [] false false [] [] (fun _ => none)).arguments =
      ["a".data, "b=1".data, "*args".data, "c".data, "**kwargs".data] := by
  constructor <;> decide

/-! ## Claim C7: doctest fencing -/

/-- Claim C7 (against the code): `_AddDoctestFences` wraps an un-fenced
`>>>` block in code fences (first conjunct), but it has no guard against
already-fenced blocks: on a docstring whose `>>>` block already lies
inside fences, it matches from the newline after the opening fence to the
blank end and wraps again, emitting two extra fence lines (second
conjunct), contrary to its own docstring ("Adds fences around doctest
caret blocks that don't have them"). -/
theorem addDoctestFences_double_fences :
    addDoctestFences "Brief.\n\n>>> x\n\n".data =
      "Brief.\n\n```\n>>> x\n```\n\n".data ∧
    addDoctestFences "Brief.\n\n```\n>>> print(1)\n1\n```\n".data =
      "Brief.\n\n```\n```\n>>> print(1)\n1\n```\n```\n".data := by
  constructor <;> decide

/-! ## Claim C8: custom page content -/

/-- Counterexample to claim C8: on a module page with custom content and a
non-empty docstring body, the rendered page is not the
header/source-link/brief preamble followed by the custom content — the
docstring body is also emitted before the custom content. -/
theorem custom_content_not_only_preamble :
    build_module_page cexModulePage ≠
      specCustomModulePage cexModulePage "CUSTOM".data := by
  decide

/-- Claim C8 as amended: when the documented object carries custom page
content, each page builder emits its pre-custom prefix (header, source
link, brief, plus the docstring body — and, for classes, the inherits-from
line, constructor signature and merged class/constructor docstring)
followed by the custom content verbatim, and omits every structural
section (attributes block, child classes, methods, class variables,
module/class/function/other-member listings). -/
theorem custom_content_pages :
    (∀ p c, p.custom_content = some c →
      build_class_page p = classPagePreCustom p ++ c) ∧
    (∀ p c, p.custom_content = some c →
      build_module_page p = modulePagePreCustom p ++ c) ∧
    (∀ p c, p.custom_content = some c →
      build_function_page p = functionPageBody p ++ c) := by
  refine ⟨?_, ?_, ?_⟩ <;> intro p c h
  · simp only [build_class_page, classPagePreCustom, h]
  · simp only [build_module_page, modulePagePreCustom, h]
  · simp only [build_function_page, functionPageBody, h, Option.getD_some]

/-- Witness for C8 (amended) at a concrete module page. -/
theorem custom_content_pages_witness :
    build_module_page cexModulePage =
      modulePagePreCustom cexModulePage ++ "CUSTOM".data :=
  custom_content_pages.2.1 cexModulePage "CUSTOM".data rfl

/-! ## Dictionary lemmas -/

theorem dLookup_nil {α : Type} (k : Str) : dLookup ([] : Dict α) k = none := rfl

theorem dLookup_cons {α : Type} (k' k : Str) (v' : α) (d : Dict α) :
    dLookup ((k', v') :: d) k = if k' = k then some v' else dLookup d k := rfl

theorem dLookup_none_of_not_mem {α : Type} (e : List (Str × α)) (k : Str)
    (h : k ∉ e.map Prod.fst) : dLookup e k = none := by
  induction e with
  | nil => rfl
  | cons kv e ih =>
    obtain ⟨k', v'⟩ := kv
    simp only [List.map_cons, List.mem_cons, not_or] at h
    rw [dLookup_cons, if_neg (fun hh => h.1 hh.symm)]
    exact ih h.2

theorem dLookup_dInsert {α : Type} (d : Dict α) (k₀ k : Str) (v₀ : α) :
    dLookup (dInsert d (k₀, v₀)) k = if k₀ = k then some v₀ else dLookup d k := by
  induction d with
  | nil => simp [dInsert, dLookup_cons, dLookup_nil]
  | cons kv d ih =>
    obtain ⟨k', v'⟩ := kv
    by_cases h1 : k' = k₀
    · subst h1
      by_cases h2 : k' = k
      · subst h2; simp [dInsert, dLookup_cons]
      · simp [dInsert, dLookup_cons, h2]
    · have h1' : ¬ (k₀ = k') := fun hh => h1 hh.symm
      by_cases h2 : k' = k
      · subst h2
        simp [dInsert, dLookup_cons, h1, h1']
      · simp [dInsert, dLookup_cons, h1, h2, ih]

theorem dLookup_append {α : Type} (a b : Dict α) (k : Str) :
    dLookup (a ++ b) k = oFirst (dLookup a k) (dLookup b k) := by
  induction a with
  | nil => simp [dLookup, oFirst]
  | cons kv a ih =>
    obtain ⟨k', v'⟩ := kv
    by_cases h : k' = k
    · simp [dLookup, h, oFirst]
    · simp [dLookup, h, ih]

theorem dInsert_of_lookup_none {α : Type} (d : Dict α) (k₀ : Str) (v₀ : α)
    (h : dLookup d k₀ = none) : dInsert d (k₀, v₀) = d ++ [(k₀, v₀)] := by
  induction d with
  | nil => simp [dInsert]
  | cons kv d ih =>
    obtain ⟨k', v'⟩ := kv
    by_cases h1 : k' = k₀
    · simp [dLookup, h1] at h
    · simp [dLookup, h1] at h
      simp [dInsert, h1, ih h]

theorem dLookup_dUpdate {α : Type} (e : List (Str × α)) (d : Dict α) (k : Str)
    (hnodup : (e.map Prod.fst).Nodup) :
    dLookup (dUpdate d e) k = oFirst (dLookup e k) (dLookup d k) := by
  induction e generalizing d with
  | nil => cases hd : dLookup d k <;> simp [dUpdate, dLookup_nil, oFirst, hd]
  | cons kv e ih =>
    obtain ⟨k₀, v₀⟩ := kv
    simp only [List.map_cons, List.nodup_cons] at hnodup
    obtain ⟨hk₀, hnodup⟩ := hnodup
    have step : dUpdate d ((k₀, v₀) :: e) = dUpdate (dInsert d (k₀, v₀)) e := rfl
    rw [step, ih _ hnodup]
    by_cases h : k₀ = k
    · subst h
      have he : dLookup e k₀ = none := dLookup_none_of_not_mem e k₀ hk₀
      simp [he, dLookup_cons, dLookup_dInsert, oFirst]
    · cases hv : dLookup e k <;>
        simp [hv, dLookup_cons, h, dLookup_dInsert, oFirst]

theorem dLookup_dSetdefault {α : Type} (d : Dict α) (k₀ k : Str) (v₀ : α) :
    dLookup (dSetdefault d k₀ v₀) k =
      oFirst (dLookup d k) (if k₀ = k then some v₀ else none) := by
  unfold dSetdefault
  cases hp : dLookup d k₀ with
  | some v =>
    simp only [hp, Option.isSome_some, if_true]
    by_cases h : k₀ = k
    · subst h; simp [hp, oFirst]
    · cases hd : dLookup d k <;> simp [oFirst, h, hd]
  | none =>
    simp only [hp, Option.isSome_none, Bool.false_eq_true, if_false]
    rw [dLookup_append]
    by_cases h : k₀ = k
    · subst h; simp [dLookup_cons, dLookup_nil]
    · simp [dLookup_cons, dLookup_nil, h]

theorem dLookup_setdefault_fold {α β : Type} (l : List (Str × β)) (f : β → α)
    (d0 : Dict α) (k : Str) :
    dLookup (l.foldl (fun d kv => dSetdefault d kv.1 (f kv.2)) d0) k =
      oFirst (dLookup d0 k) ((dLookup l k).map f) := by
  induction l generalizing d0 with
  | nil => cases hd : dLookup d0 k <;> simp [dLookup, oFirst, hd]
  | cons kv l ih =>
    obtain ⟨k₀, v₀⟩ := kv
    simp only [List.foldl_cons]
    rw [ih]
    rw [dLookup_dSetdefault]
    by_cases h : k₀ = k
    · subst h
      cases hd : dLookup d0 k₀ <;> simp [oFirst, dLookup, hd]
    · cases hd : dLookup d0 k <;> simp [oFirst, dLookup, h, hd]

theorem foldl_dInsert_append {α : Type} (l : List (Str × α)) :
    ∀ acc : Dict α, (∀ kv ∈ l, dLookup acc kv.1 = none) →
      (l.map Prod.fst).Nodup → l.foldl dInsert acc = acc ++ l := by
  induction l with
  | nil => intro acc _ _; simp
  | cons kv l ih =>
    intro acc hacc hnodup
    obtain ⟨k₀, v₀⟩ := kv
    simp only [List.map_cons, List.nodup_cons] at hnodup
    obtain ⟨hk₀, hnodup⟩ := hnodup
    simp only [List.foldl_cons]
    rw [dInsert_of_lookup_none _ _ _ (hacc _ (List.mem_cons_self _ _))]
    rw [ih (acc ++ [(k₀, v₀)]) ?_ hnodup]
    · simp
    · intro kv' hkv'
      rw [dLookup_append]
      rw [hacc _ (List.mem_cons_of_mem _ hkv')]
      have : ¬ (k₀ = kv'.1) := by
        intro hh
        exact hk₀ (hh ▸ List.mem_map_of_mem Prod.fst hkv')
      simp [dLookup, this, oFirst]

theorem dFromList_eq_self {α : Type} (l : List (Str × α))
    (hnodup : (l.map Prod.fst).Nodup) : dFromList l = l := by
  have := foldl_dInsert_append l dNil (by intro kv _; rfl) hnodup
  simpa [dFromList, dNil] using this

theorem dLookup_filter_ne {α : Type} (d : Dict α) (k₀ k : Str) :
    dLookup (d.filter fun kv => !(kv.1 = k₀ : Bool)) k =
      if k = k₀ then none else dLookup d k := by
  induction d with
  | nil => simp [dLookup_nil]
  | cons kv d ih =>
    obtain ⟨k', v'⟩ := kv
    by_cases h1 : k' = k₀
    · subst h1
      by_cases h2 : k = k'
      · subst h2
        simp [List.filter_cons, dLookup_cons, ih]
      · have h2' : ¬ (k' = k) := fun hh => h2 hh.symm
        simp [List.filter_cons, dLookup_cons, ih, h2, h2']
    · by_cases h2 : k' = k
      · subst h2
        simp [List.filter_cons, dLookup_cons, h1]
      · simp [List.filter_cons, dLookup_cons, h1, h2, ih]

theorem dKeys_filter_ne {α : Type} (d : Dict α) (k₀ : Str) :
    dKeys (d.filter fun kv => !(kv.1 = k₀ : Bool)) =
      (dKeys d).filter (fun n => !(n = k₀ : Bool)) := by
  induction d with
  | nil => rfl
  | cons kv d ih =>
    obtain ⟨k', v'⟩ := kv
    by_cases h : k' = k₀ <;>
      simp [dKeys, List.filter_cons, h] at ih ⊢ <;> exact ih

theorem lookup_pairs_self (methods : List MethodInfo)
    (hnodup : (methods.map (·.short_name)).Nodup) :
    ∀ m ∈ methods,
      dLookup (methods.map fun m => (m.short_name, m)) m.short_name = some m := by
  induction methods with
  | nil => intro m hm; cases hm
  | cons m0 ms ih =>
    intro m hm
    simp only [List.map_cons, List.nodup_cons] at hnodup
    obtain ⟨h0, hnodup⟩ := hnodup
    rcases List.mem_cons.mp hm with rfl | hm
    · simp [List.map_cons, dLookup_cons]
    · have hne : ¬ (m0.short_name = m.short_name) := by
        intro hh
        exact h0 (hh ▸ List.mem_map_of_mem (·.short_name) hm)
      simp only [List.map_cons, dLookup_cons, if_neg hne]
      exact ih hnodup m hm

theorem lookup_pairs_none (methods : List MethodInfo) (k : Str)
    (h : ∀ m ∈ methods, m.short_name ≠ k) :
    dLookup (methods.map fun m => (m.short_name, m)) k = none := by
  induction methods with
  | nil => rfl
  | cons m0 ms ih =>
    simp only [List.map_cons, dLookup_cons,
      if_neg (h m0 (List.mem_cons_self _ _))]
    exact ih (fun m hm => h m (List.mem_cons_of_mem _ hm))

theorem map_fst_pairs (methods : List MethodInfo) :
    (methods.map fun m => (m.short_name, m)).map Prod.fst =
      methods.map (·.short_name) := by
  simp [List.map_map]

/-! ## Claim C10: `split_methods` removes both constructors -/

/-- The unfolding of `split_methods`. -/
theorem split_methods_eq (methods : List MethodInfo) :
    split_methods methods =
      ⟨((dFromList (methods.map fun m => (m.short_name, m))).filter
          (fun kv => !(kv.1 = "__init__".data : Bool))).filter
          (fun kv => !(kv.1 = "__new__".data : Bool)),
        match dLookup (dFromList (methods.map fun m => (m.short_name, m)))
            "__init__".data with
        | some m => some m
        | none =>
          dLookup ((dFromList (methods.map fun m => (m.short_name, m))).filter
            (fun kv => !(kv.1 = "__init__".data : Bool))) "__new__".data⟩ := rfl

/-- Claim C10: `split_methods` removes both `__init__` and `__new__` from
the returned per-name dictionary; when `__init__` is present it is the
constructor; when only `__new__` is present it is the constructor; when
neither is present the constructor is `None` and the dictionary holds
every input method keyed by its short name. -/
theorem split_methods_removes_ctors (methods : List MethodInfo)
    (hnodup : (methods.map (·.short_name)).Nodup) :
    (dLookup (split_methods methods).info_dict "__init__".data = none ∧
     dLookup (split_methods methods).info_dict "__new__".data = none) ∧
    (∀ m ∈ methods, m.short_name = "__init__".data →
      (split_methods methods).constructor = some m) ∧
    ((∀ m ∈ methods, m.short_name ≠ "__init__".data) →
      ∀ m ∈ methods, m.short_name = "__new__".data →
        (split_methods methods).constructor = some m) ∧
    ((∀ m ∈ methods, m.short_name ≠ "__init__".data ∧
        m.short_name ≠ "__new__".data) →
      (split_methods methods).constructor = none ∧
      ∀ m ∈ methods,
        dLookup (split_methods methods).info_dict m.short_name = some m) := by
  have hd : dFromList (methods.map fun m => (m.short_name, m)) =
      methods.map fun m => (m.short_name, m) :=
    dFromList_eq_self _ (by rw [map_fst_pairs]; exact hnodup)
  rw [split_methods_eq, hd]
  refine ⟨⟨?_, ?_⟩, ?_, ?_, ?_⟩
  · rw [dLookup_filter_ne, if_neg (by decide), dLookup_filter_ne, if_pos rfl]
  · rw [dLookup_filter_ne, if_pos rfl]
  · intro m hm hshort
    have := lookup_pairs_self methods hnodup m hm
    rw [hshort] at this
    simp only [this]
  · intro hno m hm hshort
    rw [lookup_pairs_none methods _ hno]
    rw [dLookup_filter_ne, if_neg (by decide)]
    have := lookup_pairs_self methods hnodup m hm
    rw [hshort] at this
    simp only [this]
  · intro hno
    rw [lookup_pairs_none methods _ (fun m hm => (hno m hm).1)]
    constructor
    · rw [dLookup_filter_ne, if_neg (by decide)]
      exact lookup_pairs_none methods _ (fun m hm => (hno m hm).2)
    · intro m hm
      rw [dLookup_filter_ne, if_neg (hno m hm).2, dLookup_filter_ne,
        if_neg (hno m hm).1]
      exact lookup_pairs_self methods hnodup m hm

/-- Witness for C10 at a concrete method list with both `__init__` and
`__new__` present: `__init__` is the constructor and neither appears in
the dictionary. -/
theorem split_methods_removes_ctors_witness :
    dLookup (split_methods
        [mkMeth "__init__", mkMeth "__new__", mkMeth "run"]).info_dict
      "__init__".data = none ∧
    dLookup (split_methods
        [mkMeth "__init__", mkMeth "__new__", mkMeth "run"]).info_dict
      "__new__".data = none :=
  (split_methods_removes_ctors
    [mkMeth "__init__", mkMeth "__new__", mkMeth "run"] (by decide)).1

/-! ## Claim C4: attribute-block merge priority -/

/-- Counterexample to claim C4: the named-tuple slot for `x` already holds
the property-derived description (written by `_add_property`), but the
docstring's declared `Attributes:` item for `x` — a *later* source in the
claimed priority order — overrides it in the synthesized block
(`attrs.update(raw_attrs)` overwrites, it does not skip existing keys). -/
theorem attribute_merge_overrides :
    (add_property ⟨[("x".data, none)], []⟩ "x".data
        ⟨"prop desc".data, []⟩).namedtuplefields =
      [("x".data, some "  prop desc\n".data)] ∧
    (augment_attributes
        (add_property ⟨[("x".data, none)], []⟩ "x".data ⟨"prop desc".data, []⟩)
        false []
        [.block ⟨"Attributes".data, [],
          [("x".data, some "doc desc".data)]⟩]).1 =
      some ⟨"Attributes".data, [], [("x".data, some "doc desc".data)]⟩ ∧
    ("doc desc".data : Str) ≠ "  prop desc\n".data := by
  refine ⟨by decide, by decide, by decide⟩

/-- Claim C4 as amended: the synthesized attributes block resolves each
name with the priority docstring `Attributes:` item → named-tuple entry
(which holds the property-derived description for named-tuple fields) →
property description → dataclass-field placeholder: the declared
docstring block *overrides* named-tuple entries (`dict.update`), while
property and dataclass sources never override an existing entry
(`dict.setdefault`). -/
theorem attribute_merge_priority :
    (∀ (st : ClassAttrState) (isDC : Bool) (dcNames : List Str)
        (raw : List (Str × Option Str)),
      (raw.map Prod.fst).Nodup →
      (st.namedtuplefields.map Prod.fst).Nodup →
      ∀ k, dLookup (mergedAttrs st isDC dcNames raw) k =
        oFirst (oFirst (dLookup raw k) (dLookup st.namedtuplefields k))
          (oFirst ((dLookup st.properties k).map some)
            (if isDC then (dLookup (dataclass_fields dcNames) k).map some
             else none))) ∧
    (∀ (st : ClassAttrState) (isDC : Bool) (dcNames : List Str)
        (parts : List DocPart),
      (augment_attributes st isDC dcNames parts).1 =
        (if mergedAttrs st isDC dcNames
            (dFromList (declaredAttrItems parts)) ≠ [] then
          some ⟨"Attributes".data, [],
            mergedAttrs st isDC dcNames (dFromList (declaredAttrItems parts))⟩
         else none)) := by
  constructor
  · intro st isDC dcNames raw hraw hntf k
    unfold mergedAttrs
    cases isDC
    · simp only [Bool.false_eq_true, if_false]
      rw [dLookup_setdefault_fold,
        dLookup_dUpdate _ _ _ hraw, dLookup_dUpdate _ _ _ hntf]
      cases h1 : dLookup raw k <;> cases h2 : dLookup st.namedtuplefields k <;>
        cases h3 : dLookup st.properties k <;> simp [oFirst, dNil, dLookup_nil]
    · simp only [if_true]
      rw [dLookup_setdefault_fold, dLookup_setdefault_fold,
        dLookup_dUpdate _ _ _ hraw, dLookup_dUpdate _ _ _ hntf]
      cases h1 : dLookup raw k <;> cases h2 : dLookup st.namedtuplefields k <;>
        cases h3 : dLookup st.properties k <;>
        cases h4 : dLookup (dataclass_fields dcNames) k <;>
          simp [oFirst, dNil, dLookup_nil]
  · intro st isDC dcNames parts
    rfl

/-- Witness for C4 (amended) at a concrete merge: a name declared both as
a named-tuple field and in the docstring block resolves to the docstring
description. -/
theorem attribute_merge_priority_witness :
    dLookup (mergedAttrs ⟨[("x".data, some "prop".data)], []⟩ false []
        [("x".data, some "doc".data)]) "x".data =
      oFirst (oFirst (dLookup [("x".data, some "doc".data)] "x".data)
          (dLookup [("x".data, some "prop".data)] "x".data))
        (oFirst ((dLookup ([] : Dict Str) "x".data).map some)
          (if false then
            (dLookup (dataclass_fields []) "x".data).map some
           else none)) :=
  attribute_merge_priority.1 ⟨[("x".data, some "prop".data)], []⟩ false []
    [("x".data, some "doc".data)] (by decide) (by decide) "x".data

/-! ## Claim C5: method ordering -/

theorem strLt_trans : ∀ (a b c : Str), strLt a b = true → strLt b c = true →
    strLt a c = true := by
  intro a
  induction a with
  | nil =>
    intro b c hab hbc
    cases b with
    | nil => simp [strLt] at hab
    | cons y ys =>
      cases c with
      | nil => simp [strLt] at hbc
      | cons z zs => simp [strLt]
  | cons x xs ih =>
    intro b c hab hbc
    cases b with
    | nil => simp [strLt] at hab
    | cons y ys =>
      cases c with
      | nil => simp [strLt] at hbc
      | cons z zs =>
        simp only [strLt] at hab hbc ⊢
        by_cases hxy : x = y
        · subst hxy
          by_cases hyz : x = z
          · subst hyz
            simp only [if_pos rfl] at hab hbc ⊢
            exact ih ys zs hab hbc
          · simp only [if_neg hyz] at hbc ⊢
            exact hbc
        · by_cases hyz : y = z
          · subst hyz
            simp only [if_neg hxy] at hab ⊢
            exact hab
          · simp only [if_neg hxy, if_neg hyz, decide_eq_true_eq] at hab hbc
            by_cases hxz : x = z
            · subst hxz
              exact absurd (lt_trans hab hbc) (lt_irrefl x)
            · simp only [if_neg hxz, decide_eq_true_eq]
              exact lt_trans hab hbc

theorem strLt_connex : ∀ (a b : Str), a ≠ b →
    strLt a b = true ∨ strLt b a = true := by
  intro a
  induction a with
  | nil =>
    intro b hne
    cases b with
    | nil => exact absurd rfl hne
    | cons y ys => left; simp [strLt]
  | cons x xs ih =>
    intro b hne
    cases b with
    | nil => right; simp [strLt]
    | cons y ys =>
      by_cases hxy : x = y
      · subst hxy
        have hne' : xs ≠ ys := fun h => hne (by rw [h])
        rcases ih ys hne' with h | h
        · left; simp [strLt, h]
        · right; simp [strLt, h]
      · rcases lt_or_gt_of_ne hxy with h | h
        · left; simp [strLt, hxy, h]
        · right
          have hyx : ¬ (y = x) := fun hh => hxy hh.symm
          simp [strLt, hyx, h]

theorem method_sort_snd (n : Str) : (method_sort n).2 = n := by
  unfold method_sort
  split
  · rfl
  · split <;> rfl

theorem methodKeyLe_iff (a b : Str) :
    methodKeyLe a b = true ↔
      ((method_sort a).1 < (method_sort b).1 ∨
        ((method_sort a).1 = (method_sort b).1 ∧ (a = b ∨ strLt a b = true))) := by
  show (if (method_sort a).1 = (method_sort b).1 then
      decide ((method_sort a).2 = (method_sort b).2) ||
        strLt (method_sort a).2 (method_sort b).2
    else decide ((method_sort a).1 < (method_sort b).1)) = true ↔ _
  rw [method_sort_snd a, method_sort_snd b]
  by_cases h : (method_sort a).1 = (method_sort b).1
  · simp [h]
  · simp [h]

/-- Counterexample to claim C5: with methods named `_private`, `__init__`,
`public_b`, `public_a`, the Methods section renders `public_a`,
`public_b`, `_private` — `__init__` is extracted by `split_methods` as the
constructor (rendered as the class signature, not as a method section), so
the claimed order `public_a, public_b, __init__, _private` does not occur
on the page. -/
theorem method_order_counterexample :
    methodSectionOrder
        [mkMeth "_private", mkMeth "__init__", mkMeth "public_b",
          mkMeth "public_a"] =
      ["public_a".data, "public_b".data, "_private".data] ∧
    (split_methods
        [mkMeth "_private", mkMeth "__init__", mkMeth "public_b",
          mkMeth "public_a"]).constructor = some (mkMeth "__init__") ∧
    (["public_a".data, "public_b".data, "_private".data] : List Str) ≠
      ["public_a".data, "public_b".data, "__init__".data, "_private".data] := by
  refine ⟨by decide, by decide, by decide⟩

/-- Claim C5 as amended: the Methods section of a class page renders the
method names other than the constructor (`__init__`/`__new__` are popped
by `split_methods` and documented as the constructor) sorted by the 3-tier
`_method_sort` key: tier `-1` for names not starting with `_`, tier `1`
for names starting with `__`, tier `2` for the remaining names starting
with `_`, alphabetically (by code point) within a tier. -/
theorem method_section_order (methods : List MethodInfo)
    (hnodup : (methods.map (·.short_name)).Nodup) :
    methodSectionOrder methods =
      List.insertionSort (fun a b => methodKeyLe a b)
        (((methods.map (·.short_name)).filter
            (fun n => !(n = "__init__".data : Bool))).filter
          (fun n => !(n = "__new__".data : Bool))) ∧
    List.Sorted (fun a b => methodKeyLe a b = true)
      (methodSectionOrder methods) ∧
    (∀ n : Str, "__".data.isPrefixOf n → method_sort n = (1, n)) ∧
    (∀ n : Str, ¬"__".data.isPrefixOf n = true → "_".data.isPrefixOf n →
      method_sort n = (2, n)) ∧
    (∀ n : Str, ¬"_".data.isPrefixOf n = true → method_sort n = (-1, n)) := by
  have hkeys : dKeys (split_methods methods).info_dict =
      ((methods.map (·.short_name)).filter
          (fun n => !(n = "__init__".data : Bool))).filter
        (fun n => !(n = "__new__".data : Bool)) := by
    have h1 : (split_methods methods).info_dict =
        ((methods.map fun m => (m.short_name, m)).filter
            (fun kv => !(kv.1 = "__init__".data : Bool))).filter
          (fun kv => !(kv.1 = "__new__".data : Bool)) := by
      rw [split_methods_eq,
        dFromList_eq_self _ (by rw [map_fst_pairs]; exact hnodup)]
    rw [h1, dKeys_filter_ne, dKeys_filter_ne]
    have : dKeys (methods.map fun m => (m.short_name, m)) =
        methods.map (·.short_name) := map_fst_pairs methods
    rw [this]
  haveI instTrans : IsTrans Str (fun a b => methodKeyLe a b = true) := by
    constructor
    intro a b c hab hbc
    rw [methodKeyLe_iff] at hab hbc ⊢
    rcases hab with hab | ⟨hab, hab2⟩
    · rcases hbc with hbc | ⟨hbc, _⟩
      · exact Or.inl (lt_trans hab hbc)
      · exact Or.inl (hbc ▸ hab)
    · rcases hbc with hbc | ⟨hbc, hbc2⟩
      · exact Or.inl (hab ▸ hbc)
      · refine Or.inr ⟨hab.trans hbc, ?_⟩
        rcases hab2 with rfl | hab2
        · exact hbc2
        · rcases hbc2 with rfl | hbc2
          · exact Or.inr hab2
          · exact Or.inr (strLt_trans _ _ _ hab2 hbc2)
  haveI instTotal : IsTotal Str (fun a b => methodKeyLe a b = true) := by
    constructor
    intro a b
    rw [methodKeyLe_iff, methodKeyLe_iff]
    rcases lt_trichotomy (method_sort a).1 (method_sort b).1 with h | h | h
    · exact Or.inl (Or.inl h)
    · by_cases hab : a = b
      · exact Or.inl (Or.inr ⟨h, Or.inl hab⟩)
      · rcases strLt_connex a b hab with hs | hs
        · exact Or.inl (Or.inr ⟨h, Or.inr hs⟩)
        · exact Or.inr (Or.inr ⟨h.symm, Or.inr hs⟩)
    · exact Or.inr (Or.inl h)
  refine ⟨?_, ?_, ?_, ?_, ?_⟩
  · unfold methodSectionOrder
    rw [hkeys]
  · exact List.sorted_insertionSort _ _
  · intro n h
    unfold method_sort
    rw [if_pos h]
  · intro n h1 h2
    unfold method_sort
    rw [if_neg h1, if_pos h2]
  · intro n h
    have h2 : ¬ "__".data.isPrefixOf n = true := by
      intro hh
      apply h
      have : ("_".data : Str) <+: "__".data := ⟨['_'], rfl⟩
      exact List.isPrefixOf_iff_prefix.mpr
        (this.trans (List.isPrefixOf_iff_prefix.mp hh))
    unfold method_sort
    rw [if_neg h2, if_neg h]

/-- Witness for C5 (amended) at a concrete method list. -/
theorem method_section_order_witness :
    methodSectionOrder
        [mkMeth "_private", mkMeth "__init__", mkMeth "public_b",
          mkMeth "public_a"] =
      List.insertionSort (fun a b => methodKeyLe a b)
        ((([mkMeth "_private", mkMeth "__init__", mkMeth "public_b",
              mkMeth "public_a"].map (·.short_name)).filter
            (fun n => !(n = "__init__".data : Bool))).filter
          (fun n => !(n = "__new__".data : Bool))) :=
  (method_section_order
    [mkMeth "_private", mkMeth "__init__", mkMeth "public_b",
      mkMeth "public_a"] (by decide)).1

/-! ## Claim C3: reference resolution -/

theorem splitOnC_ne_nil (sep : Char) (cs : Str) : splitOnC sep cs ≠ [] := by
  cases cs with
  | nil => simp [splitOnC]
  | cons c r =>
    unfold splitOnC
    by_cases h : c = sep
    · simp [h]
    · simp only [h, if_false]
      cases hs : splitOnC sep r <;> simp

theorem splitOnC_seg_no_sep (sep : Char) (cs : Str) :
    ∀ seg ∈ splitOnC sep cs, sep ∉ seg := by
  induction cs with
  | nil =>
    intro seg hseg
    simp [splitOnC] at hseg
    simp [hseg]
  | cons c r ih =>
    intro seg hseg
    unfold splitOnC at hseg
    by_cases h : c = sep
    · simp only [h, if_true, List.mem_cons] at hseg
      rcases hseg with rfl | hseg
      · simp
      · exact ih seg hseg
    · simp only [h, if_false] at hseg
      cases hs : splitOnC sep r with
      | nil => exact absurd hs (splitOnC_ne_nil sep r)
      | cons s ss =>
        rw [hs] at hseg
        simp only [List.mem_cons] at hseg
        rcases hseg with rfl | hseg
        · intro hmem
          rcases List.mem_cons.mp hmem with rfl | hmem
          · exact h rfl
          · exact ih s (hs ▸ List.mem_cons_self _ _) hmem
        · exact ih seg (hs ▸ List.mem_cons_of_mem _ hseg)

theorem splitOnC_cons (sep c : Char) (r : Str) :
    splitOnC sep (c :: r) =
      if c = sep then [] :: splitOnC sep r
      else
        match splitOnC sep r with
        | s :: ss => (c :: s) :: ss
        | [] => [[c]] := rfl

theorem splitOnC_no_sep (sep : Char) (cs : Str) (h : sep ∉ cs) :
    splitOnC sep cs = [cs] := by
  induction cs with
  | nil => rfl
  | cons c r ih =>
    simp only [List.mem_cons, not_or] at h
    rw [splitOnC_cons, if_neg (fun hh => h.1 hh.symm), ih h.2]

theorem splitOnC_append_sep (sep : Char) (u rest : Str) (h : sep ∉ u) :
    splitOnC sep (u ++ sep :: rest) = u :: splitOnC sep rest := by
  induction u with
  | nil =>
    simp only [List.nil_append]
    rw [splitOnC_cons, if_pos rfl]
  | cons c u ih =>
    simp only [List.mem_cons, not_or] at h
    simp only [List.cons_append]
    rw [splitOnC_cons, if_neg (fun hh => h.1 hh.symm), ih h.2]

theorem joinC_cons2 (sep : Char) (l l2 : Str) (ls : List Str) :
    joinC sep (l :: l2 :: ls) = l ++ sep :: joinC sep (l2 :: ls) := rfl

theorem splitOnC_joinC (sep : Char) (ls : List Str) (hne : ls ≠ [])
    (h : ∀ seg ∈ ls, sep ∉ seg) : splitOnC sep (joinC sep ls) = ls := by
  induction ls with
  | nil => exact absurd rfl hne
  | cons l ls ih =>
    cases ls with
    | nil =>
      show splitOnC sep l = [l]
      exact splitOnC_no_sep sep l (h l (List.mem_cons_self _ _))
    | cons l2 ls2 =>
      rw [joinC_cons2, splitOnC_append_sep sep l _ (h l (List.mem_cons_self _ _))]
      rw [ih (by simp) (fun seg hseg => h seg (List.mem_cons_of_mem _ hseg))]

/-- A fragment's documentation path is its parent's page path plus an
in-page anchor equal to the short name. -/
theorem docpath_fragment (main p s : Str) (h : rsplitDot main = some (p, s)) :
    documentation_path main true = documentation_path p false ++ '#' :: s := by
  unfold rsplitDot at h
  by_cases hlen : (splitOnC '.' main).length ≤ 1
  · simp [hlen] at h
  · simp only [hlen, if_false, Option.some.injEq, Prod.mk.injEq] at h
    obtain ⟨hp, hs⟩ := h
    have hdl_ne : (splitOnC '.' main).dropLast ≠ [] := by
      intro hh
      have := congrArg List.length hh
      simp [List.length_dropLast] at this
      omega
    have hdl_free : ∀ seg ∈ (splitOnC '.' main).dropLast, '.' ∉ seg :=
      fun seg hseg =>
        splitOnC_seg_no_sep '.' main seg (List.dropLast_subset _ hseg)
    unfold documentation_path
    rw [← hp, ← hs]
    rw [splitOnC_joinC '.' _ hdl_ne hdl_free]
    simp

/-- Claim C3: `reference_to_url` computes the lookup name from the
fragment classification (parent's canonical name joined with the short
name for fragments, the symbol's own canonical name otherwise), fails
with an error whenever that name is absent from the index, and otherwise
returns the relative path to the symbol's page, where a fragment's path
is its parent's page path plus an in-page anchor and a page-owning
symbol's path mirrors its dotted name.  (The hypothesis excludes the
degenerate dot-free fragment name on which Python raises `ValueError`.) -/
theorem reference_to_url_contract (r : RefResolver) (ref rel : Str)
    (hdot : (rrLookup r.is_fragment ref).getD false = true →
      (rsplitDot ref).isSome) :
    ∃ main, r.lookupName ref = some main ∧
      ((rrLookup r.is_fragment ref).getD false = true →
        ∃ p s, rsplitDot ref = some (p, s) ∧
          main = r.mainOf p ++ '.' :: s) ∧
      ((rrLookup r.is_fragment ref).getD false = false →
        main = r.mainOf ref) ∧
      (main ∉ r.allNames → ∃ e, reference_to_url r ref rel = .error e) ∧
      (main ∈ r.allNames →
        reference_to_url r ref rel =
          .ok (osJoin rel (documentation_path main
            ((rrLookup r.is_fragment main).getD false))) ∧
        ∀ p s, rsplitDot main = some (p, s) →
          documentation_path main true =
            documentation_path p false ++ '#' :: s) := by
  cases hf : (rrLookup r.is_fragment ref).getD false with
  | true =>
    obtain ⟨⟨p, s⟩, hps⟩ := Option.isSome_iff_exists.mp (hdot hf)
    refine ⟨r.mainOf p ++ '.' :: s, ?_, ?_, ?_, ?_, ?_⟩
    · unfold RefResolver.lookupName
      rw [hf, if_pos rfl, hps]
    · intro _
      exact ⟨p, s, hps, rfl⟩
    · intro hcontra
      simp [hf] at hcontra
    · intro hmem
      refine ⟨"Cannot make link to ".data ++ (r.mainOf p ++ '.' :: s) ++
        ": Not in index.".data, ?_⟩
      unfold reference_to_url RefResolver.lookupName
      rw [hf, if_pos rfl, hps]
      simp only [if_neg hmem]
    · intro hmem
      constructor
      · unfold reference_to_url RefResolver.lookupName
        rw [hf, if_pos rfl, hps]
        simp only [if_pos hmem]
      · intro p' s' hps'
        exact docpath_fragment _ p' s' hps'
  | false =>
    refine ⟨r.mainOf ref, ?_, ?_, ?_, ?_, ?_⟩
    · unfold RefResolver.lookupName
      rw [hf]
      simp
    · intro hcontra
      simp [hf] at hcontra
    · intro _
      rfl
    · intro hmem
      refine ⟨"Cannot make link to ".data ++ r.mainOf ref ++
        ": Not in index.".data, ?_⟩
      unfold reference_to_url RefResolver.lookupName
      rw [hf]
      simp only [Bool.false_eq_true, if_false, if_neg hmem]
    · intro hmem
      constructor
      · unfold reference_to_url RefResolver.lookupName
        rw [hf]
        simp only [Bool.false_eq_true, if_false, if_pos hmem]
      · intro p' s' hps'
        exact docpath_fragment _ p' s' hps'

/-- Witness for C3 at a concrete resolver: `tf.A.m` is a fragment whose
reference resolves to the parent's page with an anchor. -/
theorem reference_to_url_contract_witness :
    ∃ main, cexResolver.lookupName "tf.A.m".data = some main ∧
      ((rrLookup cexResolver.is_fragment "tf.A.m".data).getD false = true →
        ∃ p s, rsplitDot "tf.A.m".data = some (p, s) ∧
          main = cexResolver.mainOf p ++ '.' :: s) ∧
      ((rrLookup cexResolver.is_fragment "tf.A.m".data).getD false = false →
        main = cexResolver.mainOf "tf.A.m".data) ∧
      (main ∉ cexResolver.allNames →
        ∃ e, reference_to_url cexResolver "tf.A.m".data "..".data =
          .error e) ∧
      (main ∈ cexResolver.allNames →
        reference_to_url cexResolver "tf.A.m".data "..".data =
          .ok (osJoin "..".data (documentation_path main
            ((rrLookup cexResolver.is_fragment main).getD false))) ∧
        ∀ p s, rsplitDot main = some (p, s) →
          documentation_path main true =
            documentation_path p false ++ '#' :: s) :=
  reference_to_url_contract cexResolver "tf.A.m".data "..".data
    (fun _ => by decide)

/-! ## Claims C1 and C2: the `AUTO_REFERENCE_RE` scan

Facts about the two regex branches. -/

theorem brackSplit_eq_some {xs pre r : Str} (h : brackSplit xs = some (pre, r)) :
    xs = pre ++ ']' :: r ∧ ∀ c ∈ pre, c ≠ ']' := by
  unfold brackSplit at h
  rcases hd : xs.dropWhile (fun c => c != ']') with _ | ⟨c, r'⟩ <;> rw [hd] at h
  · simp at h
  · by_cases hc : c = ']'
    · subst hc
      simp only [Option.some.injEq, Prod.mk.injEq] at h
      obtain ⟨h1, h2⟩ := h
      subst h1; subst h2
      constructor
      · conv_lhs => rw [← List.takeWhile_append_dropWhile
          (p := fun c => c != ']') (l := xs)]
        rw [hd]
      · intro c hc
        have := List.mem_takeWhile_imp hc
        simpa using this
    · simp [hc] at h

theorem brackSplit_length {xs pre r : Str} (h : brackSplit xs = some (pre, r)) :
    r.length < xs.length := by
  obtain ⟨h1, _⟩ := brackSplit_eq_some h
  subst h1
  simp
  omega

theorem dropWhile_rb_of_mem {xs : Str} (h : ']' ∈ xs) :
    ∃ t, xs.dropWhile (fun c => c != ']') = ']' :: t := by
  induction xs with
  | nil => cases h
  | cons c r ih =>
    by_cases hc : c = ']'
    · subst hc
      exact ⟨r, by simp [List.dropWhile_cons]⟩
    · have hr : ']' ∈ r := by
        rcases List.mem_cons.mp h with hh | hh
        · exact absurd hh.symm hc
        · exact hh
      obtain ⟨t, ht⟩ := ih hr
      refine ⟨t, ?_⟩
      simp only [List.dropWhile_cons]
      have hcc : ((c != ']') : Bool) = true := by simp [hc]
      rw [hcc]
      simpa using ht

theorem brackSplit_none_iff (xs : Str) : brackSplit xs = none ↔ ']' ∉ xs := by
  constructor
  · intro h hmem
    obtain ⟨t, ht⟩ := dropWhile_rb_of_mem hmem
    unfold brackSplit at h
    rw [ht] at h
    simp at h
  · intro h
    cases hb : brackSplit xs with
    | none => rfl
    | some pr =>
      obtain ⟨p, z⟩ := pr
      obtain ⟨h1, _⟩ := brackSplit_eq_some hb
      subst h1
      exact absurd (by simp : ']' ∈ p ++ ']' :: z) h

theorem takeWhile_append_of_all {p : Char → Bool} {u : Str} (v : Str)
    (h : ∀ c ∈ u, p c = true) :
    (u ++ v).takeWhile p = u ++ v.takeWhile p := by
  induction u with
  | nil => simp
  | cons c u ih =>
    simp only [List.cons_append, List.takeWhile_cons,
      h c (List.mem_cons_self _ _), if_true]
    rw [ih (fun c hc => h c (List.mem_cons_of_mem _ hc))]

theorem dropWhile_append_of_all {p : Char → Bool} {u : Str} (v : Str)
    (h : ∀ c ∈ u, p c = true) :
    (u ++ v).dropWhile p = v.dropWhile p := by
  induction u with
  | nil => simp
  | cons c u ih =>
    simp only [List.cons_append, List.dropWhile_cons,
      h c (List.mem_cons_self _ _), if_true]
    exact ih (fun c hc => h c (List.mem_cons_of_mem _ hc))

theorem brackSplit_build {pre t : Str} (h : ∀ c ∈ pre, c ≠ ']') :
    brackSplit (pre ++ ']' :: t) = some (pre, t) := by
  have hall : ∀ c ∈ pre, ((c != ']') : Bool) = true := by
    intro c hc; simpa using h c hc
  unfold brackSplit
  rw [dropWhile_append_of_all _ hall, takeWhile_append_of_all _ hall]
  simp [List.dropWhile_cons, List.takeWhile_cons]

theorem brackSplit_append (u v : Str) :
    brackSplit (u ++ v) =
      match brackSplit u with
      | some (p, z) => some (p, z ++ v)
      | none => (brackSplit v).map (fun pr => (u ++ pr.1, pr.2)) := by
  cases hu : brackSplit u with
  | some pr =>
    obtain ⟨p, z⟩ := pr
    obtain ⟨h1, h2⟩ := brackSplit_eq_some hu
    subst h1
    simp only [List.append_assoc, List.cons_append]
    exact brackSplit_build h2
  | none =>
    have hnu : ']' ∉ u := (brackSplit_none_iff u).mp hu
    cases hv : brackSplit v with
    | some pr =>
      obtain ⟨p, z⟩ := pr
      obtain ⟨h1, h2⟩ := brackSplit_eq_some hv
      subst h1
      have : u ++ (p ++ ']' :: z) = (u ++ p) ++ ']' :: z := by
        simp [List.append_assoc]
      rw [this, brackSplit_build ?hpre]
      · rfl
      · intro c hc
        rcases List.mem_append.mp hc with hc | hc
        · exact fun hh => hnu (hh ▸ hc)
        · exact h2 c hc
    | none =>
      have hnv : ']' ∉ v := (brackSplit_none_iff v).mp hv
      have : ']' ∉ u ++ v := by
        intro hm
        rcases List.mem_append.mp hm with hm | hm
        · exact hnu hm
        · exact hnv hm
      rw [(brackSplit_none_iff (u ++ v)).mpr this]
      rfl

theorem tickSplit_eq_some {xs a r : Str} (h : tickSplit xs = some (a, r)) :
    xs = a ++ '\x60' :: r ∧ a ≠ [] ∧ ∀ c ∈ a, allowedTick c = true := by
  unfold tickSplit at h
  rcases ht : xs.takeWhile allowedTick with _ | ⟨b, bs⟩ <;> rw [ht] at h
  · simp at h
  · rcases hd : xs.dropWhile allowedTick with _ | ⟨c, r'⟩ <;> rw [hd] at h
    · simp at h
    · by_cases hc : c = '\x60'
      · subst hc
        simp only [Option.some.injEq, Prod.mk.injEq] at h
        obtain ⟨h1, h2⟩ := h
        subst h1; subst h2
        refine ⟨?_, by simp, ?_⟩
        · conv_lhs => rw [← List.takeWhile_append_dropWhile
            (p := allowedTick) (l := xs)]
          rw [ht, hd]
        · intro c hc
          rw [← ht] at hc
          exact List.mem_takeWhile_imp hc
      · simp [hc] at h

theorem tickSplit_length {xs a r : Str} (h : tickSplit xs = some (a, r)) :
    r.length < xs.length := by
  obtain ⟨h1, _, _⟩ := tickSplit_eq_some h
  subst h1
  simp
  omega

theorem allowedTick_btick : allowedTick '\x60' = false := rfl

theorem tickSplit_none_iff (xs : Str) :
    tickSplit xs = none ↔
      (firstDis xs ≠ some '\x60' ∨ xs.head? = some '\x60') := by
  cases xs with
  | nil => simp [tickSplit, firstDis]
  | cons c r =>
    by_cases hc : allowedTick c = true
    · have hcb : c ≠ '\x60' := by
        intro hh; rw [hh] at hc; exact absurd hc (by simp [allowedTick_btick])
      unfold tickSplit firstDis
      simp only [List.takeWhile_cons, List.dropWhile_cons, hc, if_true]
      rcases hd : r.dropWhile allowedTick with _ | ⟨d, t⟩
      · simp [hcb]
      · by_cases hdd : d = '\x60'
        · subst hdd; simp [List.head?, hcb]
        · simp [List.head?, hdd, hcb]
    · unfold tickSplit firstDis
      simp only [List.takeWhile_cons, List.dropWhile_cons, hc]
      simp only [Bool.false_eq_true, if_false]
      by_cases hcb : c = '\x60'
      · simp [hcb]
      · simp [List.head?, hcb]

/-! ### Fuel congruence and unfolding equations for the scan -/

theorem lineSubF_congr : ∀ (f g : Nat) (cs : Str), cs.length ≤ f →
    cs.length ≤ g → lineSubF f cs = lineSubF g cs := by
  intro f
  induction f with
  | zero =>
    intro g cs hf _
    have : cs = [] := List.length_eq_zero.mp (Nat.le_zero.mp hf)
    subst this
    cases g <;> rfl
  | succ f ih =>
    intro g cs hf hg
    cases cs with
    | nil => cases g <;> rfl
    | cons c xs =>
      cases g with
      | zero => simp at hg
      | succ g =>
        have hxf : xs.length ≤ f := by simpa using hf
        have hxg : xs.length ≤ g := by simpa using hg
        simp only [lineSubF]
        by_cases h1 : c = '['
        · simp only [h1, if_true]
          cases hb : brackSplit xs with
          | some pr =>
            obtain ⟨pre, r⟩ := pr
            have hr := brackSplit_length hb
            dsimp only
            rw [ih g r (by omega) (by omega)]
          | none =>
            dsimp only
            rw [ih g xs hxf hxg]
        · simp only [h1, if_false]
          by_cases h2 : c = '\x60'
          · simp only [h2, if_true]
            cases ht : tickSplit xs with
            | some ar =>
              obtain ⟨a, r⟩ := ar
              have hr := tickSplit_length ht
              dsimp only
              rw [ih g r (by omega) (by omega)]
            | none =>
              dsimp only
              rw [ih g xs hxf hxg]
          · simp only [h2, if_false]
            rw [ih g xs hxf hxg]

theorem lineSub_nil : lineSub [] = [] := rfl

theorem lineSub_brack_some {xs pre r : Str} (h : brackSplit xs = some (pre, r)) :
    lineSub ('[' :: xs) = '[' :: (pre ++ ']' :: lineSub r) := by
  have e : lineSub ('[' :: xs) = '[' :: (pre ++ ']' :: lineSubF xs.length r) := by
    show lineSubF (xs.length + 1) ('[' :: xs) = _
    simp [lineSubF, h]
  rw [e, lineSubF_congr xs.length r.length r
    (by have := brackSplit_length h; omega) le_rfl]
  rfl

theorem lineSub_brack_none {xs : Str} (h : brackSplit xs = none) :
    lineSub ('[' :: xs) = '[' :: lineSub xs := by
  show lineSubF (xs.length + 1) ('[' :: xs) = _
  simp [lineSubF, h]
  rfl

theorem lineSub_tick_some {xs a r : Str} (h : tickSplit xs = some (a, r)) :
    lineSub ('\x60' :: xs) = codeOpen ++ a ++ codeClose ++ lineSub r := by
  have e : lineSub ('\x60' :: xs) =
      codeOpen ++ a ++ codeClose ++ lineSubF xs.length r := by
    show lineSubF (xs.length + 1) ('\x60' :: xs) = _
    simp [lineSubF, h]
  rw [e, lineSubF_congr xs.length r.length r
    (by have := tickSplit_length h; omega) le_rfl]
  rfl

theorem lineSub_tick_none {xs : Str} (h : tickSplit xs = none) :
    lineSub ('\x60' :: xs) = '\x60' :: lineSub xs := by
  show lineSubF (xs.length + 1) ('\x60' :: xs) = _
  simp [lineSubF, h]
  rfl

theorem lineSub_plain {c : Char} {xs : Str} (h1 : c ≠ '[') (h2 : c ≠ '\x60') :
    lineSub (c :: xs) = c :: lineSub xs := by
  show lineSubF (xs.length + 1) (c :: xs) = _
  simp [lineSubF, h1, h2]
  rfl

theorem tokenizeF_congr : ∀ (f g : Nat) (cs : Str), cs.length ≤ f →
    cs.length ≤ g → tokenizeF f cs = tokenizeF g cs := by
  intro f
  induction f with
  | zero =>
    intro g cs hf _
    have : cs = [] := List.length_eq_zero.mp (Nat.le_zero.mp hf)
    subst this
    cases g <;> rfl
  | succ f ih =>
    intro g cs hf hg
    cases cs with
    | nil => cases g <;> rfl
    | cons c xs =>
      cases g with
      | zero => simp at hg
      | succ g =>
        have hxf : xs.length ≤ f := by simpa using hf
        have hxg : xs.length ≤ g := by simpa using hg
        simp only [tokenizeF]
        by_cases h1 : c = '['
        · simp only [h1, if_true]
          cases hb : brackSplit xs with
          | some pr =>
            obtain ⟨pre, r⟩ := pr
            have hr := brackSplit_length hb
            dsimp only
            rw [ih g r (by omega) (by omega)]
          | none =>
            dsimp only
            rw [ih g xs hxf hxg]
        · simp only [h1, if_false]
          by_cases h2 : c = '\x60'
          · simp only [h2, if_true]
            cases ht : tickSplit xs with
            | some ar =>
              obtain ⟨a, r⟩ := ar
              have hr := tickSplit_length ht
              dsimp only
              rw [ih g r (by omega) (by omega)]
            | none =>
              dsimp only
              rw [ih g xs hxf hxg]
          · simp only [h2, if_false]
            rw [ih g xs hxf hxg]

theorem tokenize_nil : tokenize [] = [] := rfl

theorem tokenize_brack_some {xs pre r : Str} (h : brackSplit xs = some (pre, r)) :
    tokenize ('[' :: xs) = .brack pre :: tokenize r := by
  have e : tokenize ('[' :: xs) = .brack pre :: tokenizeF xs.length r := by
    show tokenizeF (xs.length + 1) ('[' :: xs) = _
    simp [tokenizeF, h]
  rw [e, tokenizeF_congr xs.length r.length r
    (by have := brackSplit_length h; omega) le_rfl]
  rfl

theorem tokenize_brack_none {xs : Str} (h : brackSplit xs = none) :
    tokenize ('[' :: xs) = .plain '[' :: tokenize xs := by
  show tokenizeF (xs.length + 1) ('[' :: xs) = _
  simp [tokenizeF, h]
  rfl

theorem tokenize_tick_some {xs a r : Str} (h : tickSplit xs = some (a, r)) :
    tokenize ('\x60' :: xs) = .tick a :: tokenize r := by
  have e : tokenize ('\x60' :: xs) = .tick a :: tokenizeF xs.length r := by
    show tokenizeF (xs.length + 1) ('\x60' :: xs) = _
    simp [tokenizeF, h]
  rw [e, tokenizeF_congr xs.length r.length r
    (by have := tickSplit_length h; omega) le_rfl]
  rfl

theorem tokenize_tick_none {xs : Str} (h : tickSplit xs = none) :
    tokenize ('\x60' :: xs) = .plain '\x60' :: tokenize xs := by
  show tokenizeF (xs.length + 1) ('\x60' :: xs) = _
  simp [tokenizeF, h]
  rfl

theorem tokenize_plain {c : Char} {xs : Str} (h1 : c ≠ '[') (h2 : c ≠ '\x60') :
    tokenize (c :: xs) = .plain c :: tokenize xs := by
  show tokenizeF (xs.length + 1) (c :: xs) = _
  simp [tokenizeF, h1, h2]
  rfl

theorem lineFixedF_congr : ∀ (f g : Nat) (cs : Str), cs.length ≤ f →
    cs.length ≤ g → lineFixedF f cs = lineFixedF g cs := by
  intro f
  induction f with
  | zero =>
    intro g cs hf _
    have : cs = [] := List.length_eq_zero.mp (Nat.le_zero.mp hf)
    subst this
    cases g <;> rfl
  | succ f ih =>
    intro g cs hf hg
    cases cs with
    | nil => cases g <;> rfl
    | cons c xs =>
      cases g with
      | zero => simp at hg
      | succ g =>
        have hxf : xs.length ≤ f := by simpa using hf
        have hxg : xs.length ≤ g := by simpa using hg
        simp only [lineFixedF]
        by_cases h1 : c = '['
        · simp only [h1, if_true]
          cases hb : brackSplit xs with
          | some pr =>
            obtain ⟨pre, r⟩ := pr
            have hr := brackSplit_length hb
            dsimp only
            rw [ih g r (by omega) (by omega)]
          | none =>
            dsimp only
            rw [ih g xs hxf hxg]
        · simp only [h1, if_false]
          by_cases h2 : c = '\x60'
          · simp only [h2, if_true]
            cases ht : tickSplit xs with
            | some ar => rfl
            | none =>
              dsimp only
              rw [ih g xs hxf hxg]
          · simp only [h2, if_false]
            rw [ih g xs hxf hxg]

theorem lineFixed_nil : lineFixed [] = true := rfl

theorem lineFixed_brack_some {xs pre r : Str}
    (h : brackSplit xs = some (pre, r)) :
    lineFixed ('[' :: xs) = lineFixed r := by
  have e : lineFixed ('[' :: xs) = lineFixedF xs.length r := by
    show lineFixedF (xs.length + 1) ('[' :: xs) = _
    simp [lineFixedF, h]
  rw [e, lineFixedF_congr xs.length r.length r
    (by have := brackSplit_length h; omega) le_rfl]
  rfl

theorem lineFixed_brack_none {xs : Str} (h : brackSplit xs = none) :
    lineFixed ('[' :: xs) = lineFixed xs := by
  show lineFixedF (xs.length + 1) ('[' :: xs) = _
  simp [lineFixedF, h]
  rfl

theorem lineFixed_tick_some {xs a r : Str} (h : tickSplit xs = some (a, r)) :
    lineFixed ('\x60' :: xs) = false := by
  show lineFixedF (xs.length + 1) ('\x60' :: xs) = _
  simp [lineFixedF, h]

theorem lineFixed_tick_none {xs : Str} (h : tickSplit xs = none) :
    lineFixed ('\x60' :: xs) = lineFixed xs := by
  show lineFixedF (xs.length + 1) ('\x60' :: xs) = _
  simp [lineFixedF, h]
  rfl

theorem lineFixed_plain {c : Char} {xs : Str} (h1 : c ≠ '[') (h2 : c ≠ '\x60') :
    lineFixed (c :: xs) = lineFixed xs := by
  show lineFixedF (xs.length + 1) (c :: xs) = _
  simp [lineFixedF, h1, h2]
  rfl

/-! ### The substituted line is a fixed point of the scan -/

theorem mem_lineSub : ∀ (n : Nat) (cs : Str), cs.length ≤ n →
    ∀ c ∈ lineSub cs, c ∈ cs ∨ c ∈ codeOpen ++ codeClose := by
  intro n
  induction n with
  | zero =>
    intro cs h
    have : cs = [] := List.length_eq_zero.mp (Nat.le_zero.mp h)
    subst this
    intro c hc
    cases hc
  | succ n ih =>
    intro cs hlen c hc
    cases cs with
    | nil => cases hc
    | cons d xs =>
      have hx : xs.length ≤ n := by simpa using hlen
      by_cases h1 : d = '['
      · subst h1
        cases hb : brackSplit xs with
        | some pr =>
          obtain ⟨pre, r⟩ := pr
          obtain ⟨hxs, _⟩ := brackSplit_eq_some hb
          have hr : r.length ≤ n := by
            have := brackSplit_length hb; omega
          rw [lineSub_brack_some hb] at hc
          rcases List.mem_cons.mp hc with rfl | hc
          · exact Or.inl (List.mem_cons_self _ _)
          · rcases List.mem_append.mp hc with hc | hc
            · exact Or.inl (List.mem_cons_of_mem _ (hxs ▸ List.mem_append_left _ hc))
            · rcases List.mem_cons.mp hc with rfl | hc
              · exact Or.inl (List.mem_cons_of_mem _
                  (hxs ▸ List.mem_append_right _ (List.mem_cons_self _ _)))
              · rcases ih r hr c hc with hin | hin
                · exact Or.inl (List.mem_cons_of_mem _
                    (hxs ▸ List.mem_append_right _ (List.mem_cons_of_mem _ hin)))
                · exact Or.inr hin
        | none =>
          rw [lineSub_brack_none hb] at hc
          rcases List.mem_cons.mp hc with rfl | hc
          · exact Or.inl (List.mem_cons_self _ _)
          · rcases ih xs hx c hc with hin | hin
            · exact Or.inl (List.mem_cons_of_mem _ hin)
            · exact Or.inr hin
      · by_cases h2 : d = '\x60'
        · subst h2
          cases ht : tickSplit xs with
          | some ar =>
            obtain ⟨a, r⟩ := ar
            obtain ⟨hxs, _, _⟩ := tickSplit_eq_some ht
            have hr : r.length ≤ n := by
              have := tickSplit_length ht; omega
            rw [lineSub_tick_some ht] at hc
            rcases List.mem_append.mp hc with hc | hc
            · rcases List.mem_append.mp hc with hc | hc
              · rcases List.mem_append.mp hc with hc | hc
                · exact Or.inr (List.mem_append_left _ hc)
                · exact Or.inl (List.mem_cons_of_mem _
                    (hxs ▸ List.mem_append_left _ hc))
              · exact Or.inr (List.mem_append_right _ hc)
            · rcases ih r hr c hc with hin | hin
              · exact Or.inl (List.mem_cons_of_mem _
                  (hxs ▸ List.mem_append_right _ (List.mem_cons_of_mem _ hin)))
              · exact Or.inr hin
          | none =>
            rw [lineSub_tick_none ht] at hc
            rcases List.mem_cons.mp hc with rfl | hc
            · exact Or.inl (List.mem_cons_self _ _)
            · rcases ih xs hx c hc with hin | hin
              · exact Or.inl (List.mem_cons_of_mem _ hin)
              · exact Or.inr hin
        · rw [lineSub_plain h1 h2] at hc
          rcases List.mem_cons.mp hc with rfl | hc
          · exact Or.inl (List.mem_cons_self _ _)
          · rcases ih xs hx c hc with hin | hin
            · exact Or.inl (List.mem_cons_of_mem _ hin)
            · exact Or.inr hin

theorem rb_not_mem_lineSub {cs : Str} (h : ']' ∉ cs) : ']' ∉ lineSub cs := by
  intro hmem
  rcases mem_lineSub cs.length cs le_rfl ']' hmem with hin | hin
  · exact h hin
  · exact absurd hin (by decide)

theorem fixed_lineSub_eq : ∀ (n : Nat) (cs : Str), cs.length ≤ n →
    lineFixed cs = true → lineSub cs = cs := by
  intro n
  induction n with
  | zero =>
    intro cs h _
    have : cs = [] := List.length_eq_zero.mp (Nat.le_zero.mp h)
    subst this
    rfl
  | succ n ih =>
    intro cs hlen hfix
    cases cs with
    | nil => rfl
    | cons d xs =>
      have hx : xs.length ≤ n := by simpa using hlen
      by_cases h1 : d = '['
      · subst h1
        cases hb : brackSplit xs with
        | some pr =>
          obtain ⟨pre, r⟩ := pr
          obtain ⟨hxs, _⟩ := brackSplit_eq_some hb
          have hr : r.length ≤ n := by
            have := brackSplit_length hb; omega
          rw [lineFixed_brack_some hb] at hfix
          rw [lineSub_brack_some hb, ih r hr hfix, hxs]
        | none =>
          rw [lineFixed_brack_none hb] at hfix
          rw [lineSub_brack_none hb, ih xs hx hfix]
      · by_cases h2 : d = '\x60'
        · subst h2
          cases ht : tickSplit xs with
          | some ar =>
            rw [lineFixed_tick_some ht] at hfix
            cases hfix
          | none =>
            rw [lineFixed_tick_none ht] at hfix
            rw [lineSub_tick_none ht, ih xs hx hfix]
        · rw [lineFixed_plain h1 h2] at hfix
          rw [lineSub_plain h1 h2, ih xs hx hfix]

theorem afterRB_cons_ne {c : Char} {r : Str} (h : c ≠ ']') :
    afterRB (c :: r) = afterRB r := by
  unfold afterRB
  simp only [List.dropWhile_cons]
  have hc : ((c != ']') : Bool) = true := by simp [h]
  rw [hc]
  simp

theorem afterRB_build {pre t : Str} (h : ∀ c ∈ pre, c ≠ ']') :
    afterRB (pre ++ ']' :: t) = t := by
  have hall : ∀ c ∈ pre, ((c != ']') : Bool) = true := by
    intro c hc; simpa using h c hc
  unfold afterRB
  rw [dropWhile_append_of_all _ hall]
  simp [List.dropWhile_cons]

theorem afterRB_no_rb {r : Str} (h : ']' ∉ r) : afterRB r = [] := by
  unfold afterRB
  have : r.dropWhile (fun c => c != ']') = [] := by
    rw [List.dropWhile_eq_nil_iff]
    intro x hx
    simp
    intro hcon
    exact h (hcon ▸ hx)
  rw [this]
  rfl

theorem lineFixed_afterRB : ∀ (n : Nat) (ys : Str), ys.length ≤ n →
    lineFixed ys = true → lineFixed (afterRB ys) = true := by
  intro n
  induction n with
  | zero =>
    intro ys h _
    have : ys = [] := List.length_eq_zero.mp (Nat.le_zero.mp h)
    subst this
    rfl
  | succ n ih =>
    intro ys hlen hfix
    cases ys with
    | nil => rfl
    | cons d r =>
      have hx : r.length ≤ n := by simpa using hlen
      by_cases h1 : d = '['
      · subst h1
        cases hb : brackSplit r with
        | some pr =>
          obtain ⟨pre, r₂⟩ := pr
          obtain ⟨hr, hpre⟩ := brackSplit_eq_some hb
          rw [lineFixed_brack_some hb] at hfix
          rw [afterRB_cons_ne (by decide), hr, afterRB_build hpre]
          exact hfix
        | none =>
          have hnr : ']' ∉ r := (brackSplit_none_iff r).mp hb
          rw [afterRB_cons_ne (by decide), afterRB_no_rb hnr]
          rfl
      · by_cases h2 : d = '\x60'
        · subst h2
          cases ht : tickSplit r with
          | some ar =>
            rw [lineFixed_tick_some ht] at hfix
            cases hfix
          | none =>
            rw [lineFixed_tick_none ht] at hfix
            rw [afterRB_cons_ne (by decide)]
            exact ih r hx hfix
        · by_cases h3 : d = ']'
          · subst h3
            rw [lineFixed_plain h1 h2] at hfix
            unfold afterRB
            simp only [List.dropWhile_cons]
            have : ((']' != ']') : Bool) = false := by decide
            rw [this]
            simpa using hfix
          · rw [lineFixed_plain h1 h2] at hfix
            rw [afterRB_cons_ne h3]
            exact ih r hx hfix

theorem lineFixed_append : ∀ (n : Nat) (β tail : Str), β.length ≤ n →
    '\x60' ∉ β → lineFixed tail = true → lineFixed (β ++ tail) = true := by
  intro n
  induction n with
  | zero =>
    intro β tail h _ hfix
    have : β = [] := List.length_eq_zero.mp (Nat.le_zero.mp h)
    subst this
    simpa using hfix
  | succ n ih =>
    intro β tail hlen hbt hfix
    cases β with
    | nil => simpa using hfix
    | cons c β' =>
      have hx : β'.length ≤ n := by simpa using hlen
      have hbt' : '\x60' ∉ β' := fun hm => hbt (List.mem_cons_of_mem _ hm)
      have hcb : c ≠ '\x60' := fun hh => hbt (hh ▸ List.mem_cons_self _ _)
      rw [List.cons_append]
      by_cases h1 : c = '['
      · subst h1
        cases hb : brackSplit β' with
        | some pz =>
          obtain ⟨p, z⟩ := pz
          obtain ⟨hβ, hp⟩ := brackSplit_eq_some hb
          have hsplit : brackSplit (β' ++ tail) = some (p, z ++ tail) := by
            rw [brackSplit_append, hb]
          rw [lineFixed_brack_some hsplit]
          refine ih z tail ?_ ?_ hfix
          · have : (p ++ ']' :: z).length ≤ n := hβ ▸ hx
            simp at this
            omega
          · intro hm
            exact hbt' (hβ ▸ List.mem_append_right _ (List.mem_cons_of_mem _ hm))
        | none =>
          cases hv : brackSplit tail with
          | some pz =>
            obtain ⟨pt, zt⟩ := pz
            obtain ⟨htail, hpt⟩ := brackSplit_eq_some hv
            have hsplit : brackSplit (β' ++ tail) = some (β' ++ pt, zt) := by
              rw [brackSplit_append, hb, hv]
              rfl
            rw [lineFixed_brack_some hsplit]
            have hzt : afterRB tail = zt := by
              rw [htail, afterRB_build hpt]
            rw [← hzt]
            exact lineFixed_afterRB tail.length tail le_rfl hfix
          | none =>
            have hsplit : brackSplit (β' ++ tail) = none := by
              rw [brackSplit_append, hb, hv]
              rfl
            rw [lineFixed_brack_none hsplit]
            exact ih β' tail hx hbt' hfix
      · rw [lineFixed_plain h1 hcb]
        exact ih β' tail hx hbt' hfix

theorem dropWhile_append_split (p : Char → Bool) (u v : Str) :
    (u ++ v).dropWhile p =
      if u.dropWhile p = [] then v.dropWhile p else u.dropWhile p ++ v := by
  induction u with
  | nil => simp
  | cons c u ih =>
    simp only [List.cons_append, List.dropWhile_cons]
    cases hp : p c with
    | true => simpa [hp] using ih
    | false => simp [hp]

theorem firstDis_cons_allowed {c : Char} {r : Str} (h : allowedTick c = true) :
    firstDis (c :: r) = firstDis r := by
  unfold firstDis
  simp [List.dropWhile_cons, h]

theorem firstDis_cons_dis {c : Char} {r : Str} (h : allowedTick c = false) :
    firstDis (c :: r) = some c := by
  unfold firstDis
  simp [List.dropWhile_cons, h]

theorem firstDis_append (u v : Str) :
    firstDis (u ++ v) =
      if u.dropWhile allowedTick = [] then firstDis v else firstDis u := by
  unfold firstDis
  rw [dropWhile_append_split]
  by_cases h : u.dropWhile allowedTick = []
  · simp [h]
  · simp only [h, if_false]
    cases hd : u.dropWhile allowedTick with
    | nil => exact absurd hd h
    | cons d t => simp

theorem head_btick_firstDis {xs : Str} (h : xs.head? = some '\x60') :
    firstDis xs = some '\x60' := by
  cases xs with
  | nil => simp at h
  | cons c r =>
    simp only [List.head?_cons, Option.some.injEq] at h
    subst h
    exact firstDis_cons_dis (by decide)

theorem lineSub_head_btick : ∀ {xs : Str},
    (lineSub xs).head? = some '\x60' → xs.head? = some '\x60' := by
  intro xs h
  cases xs with
  | nil => simp [lineSub_nil] at h
  | cons d r =>
    by_cases h1 : d = '['
    · subst h1
      cases hb : brackSplit r with
      | some pr =>
        obtain ⟨pre, r₂⟩ := pr
        rw [lineSub_brack_some hb] at h
        simp at h
      | none =>
        rw [lineSub_brack_none hb] at h
        simp at h
    · by_cases h2 : d = '\x60'
      · subst h2
        rfl
      · rw [lineSub_plain h1 h2] at h
        simp only [List.head?_cons, Option.some.injEq] at h
        exact absurd h h2

theorem qprime_lineSub : ∀ (n : Nat) (xs : Str), xs.length ≤ n →
    (firstDis xs ≠ some '\x60' ∨ xs.head? = some '\x60') →
    (firstDis (lineSub xs) ≠ some '\x60' ∨
      (lineSub xs).head? = some '\x60') := by
  intro n
  induction n with
  | zero =>
    intro xs h _
    have : xs = [] := List.length_eq_zero.mp (Nat.le_zero.mp h)
    subst this
    exact Or.inl (by simp [lineSub_nil, firstDis])
  | succ n ih =>
    intro xs hlen hq
    cases xs with
    | nil => exact Or.inl (by simp [lineSub_nil, firstDis])
    | cons d r =>
      have hx : r.length ≤ n := by simpa using hlen
      by_cases h2 : d = '\x60'
      · subst h2
        cases ht : tickSplit r with
        | some ar =>
          obtain ⟨a, r₂⟩ := ar
          rw [lineSub_tick_some ht]
          refine Or.inl ?_
          have : codeOpen ++ a ++ codeClose ++ lineSub r₂ =
              '<' :: ("code>".data ++ a ++ codeClose ++ lineSub r₂) := by
            simp [codeOpen]
          rw [this, firstDis_cons_dis (by decide)]
          simp
        | none =>
          rw [lineSub_tick_none ht]
          exact Or.inr rfl
      · have hqd : firstDis (d :: r) ≠ some '\x60' := by
          rcases hq with hq | hq
          · exact hq
          · simp only [List.head?_cons, Option.some.injEq] at hq
            exact absurd hq h2
        by_cases hal : allowedTick d = true
        · have hfd : firstDis r ≠ some '\x60' := by
            rw [firstDis_cons_allowed hal] at hqd
            exact hqd
          have chain : ∀ w : Str, w.length ≤ n → firstDis w ≠ some '\x60' →
              firstDis (lineSub w) ≠ some '\x60' := by
            intro w hw hfw
            rcases ih w hw (Or.inl hfw) with hh | hh
            · exact hh
            · exact absurd (head_btick_firstDis (lineSub_head_btick hh)) hfw
          by_cases h1 : d = '['
          · subst h1
            cases hb : brackSplit r with
            | some pr =>
              obtain ⟨pre, r₂⟩ := pr
              obtain ⟨hr, hpre⟩ := brackSplit_eq_some hb
              rw [lineSub_brack_some hb]
              refine Or.inl ?_
              rw [firstDis_cons_allowed (by decide)]
              rw [show pre ++ ']' :: lineSub r₂ = pre ++ (']' :: lineSub r₂)
                from rfl]
              rw [firstDis_append]
              by_cases hdp : pre.dropWhile allowedTick = []
              · simp only [hdp, if_true]
                rw [firstDis_cons_allowed (by decide)]
                have hfd2 : firstDis r₂ ≠ some '\x60' := by
                  rw [hr, firstDis_append, hdp] at hfd
                  simp only [if_true] at hfd
                  rw [firstDis_cons_allowed (by decide)] at hfd
                  exact hfd
                have hr2 : r₂.length ≤ n := by
                  have : r.length ≤ n := hx
                  rw [hr] at this
                  simp at this
                  omega
                exact chain r₂ hr2 hfd2
              · simp only [hdp, if_false]
                rw [hr, firstDis_append] at hfd
                simp only [hdp, if_false] at hfd
                exact hfd
            | none =>
              rw [lineSub_brack_none hb]
              refine Or.inl ?_
              rw [firstDis_cons_allowed (by decide)]
              exact chain r hx hfd
          · rw [lineSub_plain h1 h2]
            refine Or.inl ?_
            rw [firstDis_cons_allowed hal]
            exact chain r hx hfd
        · have hdis : allowedTick d = false := by
            cases hda : allowedTick d
            · rfl
            · exact absurd hda hal
          have h1 : d ≠ '[' := by
            intro hh
            rw [hh] at hdis
            exact absurd hdis (by decide)
          rw [lineSub_plain h1 h2]
          refine Or.inl ?_
          rw [firstDis_cons_dis hdis]
          intro hh
          exact h2 (Option.some.inj hh)

theorem lineFixed_lineSub : ∀ (n : Nat) (cs : Str), cs.length ≤ n →
    lineFixed (lineSub cs) = true := by
  intro n
  induction n with
  | zero =>
    intro cs h
    have : cs = [] := List.length_eq_zero.mp (Nat.le_zero.mp h)
    subst this
    rfl
  | succ n ih =>
    intro cs hlen
    cases cs with
    | nil => rfl
    | cons d xs =>
      have hx : xs.length ≤ n := by simpa using hlen
      by_cases h1 : d = '['
      · subst h1
        cases hb : brackSplit xs with
        | some pr =>
          obtain ⟨pre, r⟩ := pr
          obtain ⟨hxs, hpre⟩ := brackSplit_eq_some hb
          have hr : r.length ≤ n := by
            have := brackSplit_length hb; omega
          rw [lineSub_brack_some hb]
          rw [lineFixed_brack_some (brackSplit_build hpre)]
          exact ih r hr
        | none =>
          have hnr : ']' ∉ xs := (brackSplit_none_iff xs).mp hb
          rw [lineSub_brack_none hb]
          rw [lineFixed_brack_none ((brackSplit_none_iff _).mpr
            (rb_not_mem_lineSub hnr))]
          exact ih xs hx
      · by_cases h2 : d = '\x60'
        · subst h2
          cases ht : tickSplit xs with
          | some ar =>
            obtain ⟨a, r⟩ := ar
            obtain ⟨hxs, hane, hall⟩ := tickSplit_eq_some ht
            have hr : r.length ≤ n := by
              have := tickSplit_length ht; omega
            rw [lineSub_tick_some ht]
            refine lineFixed_append (codeOpen ++ a ++ codeClose).length
              (codeOpen ++ a ++ codeClose) (lineSub r) le_rfl ?_ (ih r hr)
            intro hm
            rcases List.mem_append.mp hm with hm | hm
            · rcases List.mem_append.mp hm with hm | hm
              · exact absurd hm (by decide)
              · have := hall _ hm
                rw [allowedTick_btick] at this
                cases this
            · exact absurd hm (by decide)
          | none =>
            rw [lineSub_tick_none ht]
            have hq : firstDis xs ≠ some '\x60' ∨ xs.head? = some '\x60' :=
              (tickSplit_none_iff xs).mp ht
            have hq' := qprime_lineSub n xs hx hq
            rw [lineFixed_tick_none ((tickSplit_none_iff _).mpr hq')]
            exact ih xs hx
        · rw [lineSub_plain h1 h2, lineFixed_plain h1 h2]
          exact ih xs hx

/-- Idempotence of the per-line substitution. -/
theorem lineSub_idem (cs : Str) : lineSub (lineSub cs) = lineSub cs :=
  fixed_lineSub_eq (lineSub cs).length (lineSub cs) le_rfl
    (lineFixed_lineSub cs.length cs le_rfl)

theorem tokenize_spec : ∀ (n : Nat) (cs : Str), cs.length ≤ n →
    ((tokenize cs).map origTok).flatten = cs ∧
    lineSub cs = ((tokenize cs).map rendrTok).flatten := by
  intro n
  induction n with
  | zero =>
    intro cs h
    have : cs = [] := List.length_eq_zero.mp (Nat.le_zero.mp h)
    subst this
    exact ⟨rfl, rfl⟩
  | succ n ih =>
    intro cs hlen
    cases cs with
    | nil => exact ⟨rfl, rfl⟩
    | cons d xs =>
      have hx : xs.length ≤ n := by simpa using hlen
      by_cases h1 : d = '['
      · subst h1
        cases hb : brackSplit xs with
        | some pr =>
          obtain ⟨pre, r⟩ := pr
          obtain ⟨hxs, _⟩ := brackSplit_eq_some hb
          have hr : r.length ≤ n := by
            have := brackSplit_length hb; omega
          obtain ⟨iho, ihr⟩ := ih r hr
          constructor
          · rw [tokenize_brack_some hb]
            simp only [List.map_cons, List.flatten_cons, origTok, iho]
            rw [hxs]
            simp
          · rw [lineSub_brack_some hb, tokenize_brack_some hb]
            simp only [List.map_cons, List.flatten_cons, rendrTok, ihr]
            simp
        | none =>
          obtain ⟨iho, ihr⟩ := ih xs hx
          constructor
          · rw [tokenize_brack_none hb]
            simp only [List.map_cons, List.flatten_cons, origTok, iho]
            rfl
          · rw [lineSub_brack_none hb, tokenize_brack_none hb]
            simp only [List.map_cons, List.flatten_cons, rendrTok, ihr]
            rfl
      · by_cases h2 : d = '\x60'
        · subst h2
          cases ht : tickSplit xs with
          | some ar =>
            obtain ⟨a, r⟩ := ar
            obtain ⟨hxs, _, _⟩ := tickSplit_eq_some ht
            have hr : r.length ≤ n := by
              have := tickSplit_length ht; omega
            obtain ⟨iho, ihr⟩ := ih r hr
            constructor
            · rw [tokenize_tick_some ht]
              simp only [List.map_cons, List.flatten_cons, origTok, iho]
              rw [hxs]
              simp
            · rw [lineSub_tick_some ht, tokenize_tick_some ht]
              simp only [List.map_cons, List.flatten_cons, rendrTok, ihr]
          | none =>
            obtain ⟨iho, ihr⟩ := ih xs hx
            constructor
            · rw [tokenize_tick_none ht]
              simp only [List.map_cons, List.flatten_cons, origTok, iho]
              rfl
            · rw [lineSub_tick_none ht, tokenize_tick_none ht]
              simp only [List.map_cons, List.flatten_cons, rendrTok, ihr]
              rfl
        · obtain ⟨iho, ihr⟩ := ih xs hx
          constructor
          · rw [tokenize_plain h1 h2]
            simp only [List.map_cons, List.flatten_cons, origTok, iho]
            rfl
          · rw [lineSub_plain h1 h2, tokenize_plain h1 h2]
            simp only [List.map_cons, List.flatten_cons, rendrTok, ihr]
            rfl

/-- Claim C1: `replace_backticks` splits every line into a token stream in
which every character of the input is covered (the original texts of the
tokens concatenate back to the line), the output is the concatenation of
the tokens' rendered texts, and every bracket-group token and every plain
character renders exactly as its original text — so `[...]` spans are
byte-for-byte unchanged and only backtick groups (outside bracket groups,
which the scan consumes first) are rewritten to `<code>...</code>`. -/
theorem replace_backticks_bracket_spans_unchanged (s : Str) :
    replace_backticks s =
      joinC '\n' ((splitlines s).map
        (fun l => ((tokenize l).map rendrTok).flatten)) ∧
    (∀ l ∈ splitlines s, ((tokenize l).map origTok).flatten = l) ∧
    (∀ l ∈ splitlines s, ∀ t ∈ tokenize l,
      (∀ b, t = Tok.brack b → rendrTok t = origTok t) ∧
      (∀ c, t = Tok.plain c → rendrTok t = origTok t)) := by
  refine ⟨?_, ?_, ?_⟩
  · unfold replace_backticks
    congr 1
    apply List.map_congr_left
    intro l _
    exact (tokenize_spec l.length l le_rfl).2
  · intro l _
    exact (tokenize_spec l.length l le_rfl).1
  · intro l _ t _
    constructor
    · intro b hb
      subst hb
      rfl
    · intro c hc
      subst hc
      rfl

theorem dropNl_length (xs : Str) : (dropNl xs).length ≤ xs.length := by
  unfold dropNl
  split
  · simp
  · exact le_rfl

theorem splitlinesGoF_congr : ∀ (f g : Nat) (acc xs : Str), xs.length ≤ f →
    xs.length ≤ g → splitlinesGoF f acc xs = splitlinesGoF g acc xs := by
  intro f
  induction f with
  | zero =>
    intro g acc xs hf hg
    have : xs = [] := List.length_eq_zero.mp (Nat.le_zero.mp hf)
    subst this
    cases g with
    | zero => rfl
    | succ g => rfl
  | succ f ih =>
    intro g acc xs hf hg
    cases xs with
    | nil =>
      cases g with
      | zero => rfl
      | succ g => rfl
    | cons c rest =>
      cases g with
      | zero => simp at hg
      | succ g =>
        have hf' : rest.length ≤ f := by simpa using hf
        have hg' : rest.length ≤ g := by simpa using hg
        simp only [splitlinesGoF]
        by_cases hc : c = '\r'
        · rw [if_pos hc, if_pos hc,
            ih g [] (dropNl rest) (le_trans (dropNl_length rest) hf')
              (le_trans (dropNl_length rest) hg')]
        · rw [if_neg hc, if_neg hc]
          by_cases hs : isLineSep c = true
          · rw [if_pos hs, if_pos hs, ih g [] rest hf' hg']
          · rw [if_neg hs, if_neg hs, ih g (c :: acc) rest hf' hg']

theorem splitlinesGo_nil (acc : Str) :
    splitlinesGo acc [] = if acc = [] then [] else [acc.reverse] := rfl

theorem splitlinesGo_nl (acc rest : Str) :
    splitlinesGo acc ('\n' :: rest) = acc.reverse :: splitlinesGo [] rest := by
  show splitlinesGoF (rest.length + 1) acc ('\n' :: rest) = _
  simp only [splitlinesGoF, if_neg (by decide : ¬('\n' = '\r')),
    if_pos (by decide : isLineSep '\n' = true)]
  rfl

theorem splitlinesGo_plain {c : Char} (h : isLineSep c = false) (acc rest : Str) :
    splitlinesGo acc (c :: rest) = splitlinesGo (c :: acc) rest := by
  have hcr : ¬(c = '\r') := by
    intro hh
    rw [hh] at h
    exact absurd h (by decide)
  show splitlinesGoF (rest.length + 1) acc (c :: rest) = _
  simp only [splitlinesGoF, if_neg hcr, h, if_neg (by simp : ¬(false = true))]
  rfl

theorem splitlinesGo_append_nl : ∀ (l acc rest : Str),
    (∀ c ∈ l, isLineSep c = false) →
    splitlinesGo acc (l ++ '\n' :: rest) =
      (acc.reverse ++ l) :: splitlinesGo [] rest := by
  intro l
  induction l with
  | nil =>
    intro acc rest _
    simpa using splitlinesGo_nl acc rest
  | cons c l ih =>
    intro acc rest h
    have hc : isLineSep c = false := h c (List.mem_cons_self c l)
    rw [List.cons_append, splitlinesGo_plain hc,
      ih (c :: acc) rest (fun x hx => h x (List.mem_cons_of_mem c hx))]
    simp

theorem splitlinesGo_noSep : ∀ (l acc : Str),
    (∀ c ∈ l, isLineSep c = false) → (acc ≠ [] ∨ l ≠ []) →
    splitlinesGo acc l = [acc.reverse ++ l] := by
  intro l
  induction l with
  | nil =>
    intro acc _ h2
    have hacc : acc ≠ [] := by
      rcases h2 with h2 | h2
      · exact h2
      · exact absurd rfl h2
    rw [splitlinesGo_nil, if_neg hacc]
    simp
  | cons c l ih =>
    intro acc h h2
    have hc : isLineSep c = false := h c (List.mem_cons_self c l)
    rw [splitlinesGo_plain hc,
      ih (c :: acc) (fun x hx => h x (List.mem_cons_of_mem c hx))
        (Or.inl (by simp))]
    simp

theorem splitlines_joinC : ∀ (ls : List Str), ls ≠ [] →
    (∀ l ∈ ls, ∀ c ∈ l, isLineSep c = false) →
    ls.getLast? ≠ some [] → splitlines (joinC '\n' ls) = ls := by
  intro ls
  induction ls with
  | nil => intro h; exact absurd rfl h
  | cons l ls ih =>
    intro _ hsep hlast
    cases ls with
    | nil =>
      have hl : l ≠ [] := by
        intro hh
        subst hh
        exact hlast rfl
      show splitlinesGo [] (joinC '\n' [l]) = [l]
      rw [show joinC '\n' [l] = l from rfl,
        splitlinesGo_noSep l [] (hsep l (List.mem_cons_self l [])) (Or.inr hl)]
      simp
    | cons l₂ ls₂ =>
      show splitlinesGo [] (joinC '\n' (l :: l₂ :: ls₂)) = l :: l₂ :: ls₂
      rw [joinC_cons2, splitlinesGo_append_nl l [] (joinC '\n' (l₂ :: ls₂))
        (hsep l (List.mem_cons_self l _))]
      have ih2 := ih (by simp)
        (fun x hx => hsep x (List.mem_cons_of_mem l hx))
        (by rwa [List.getLast?_cons_cons] at hlast)
      simp only [List.reverse_nil, List.nil_append]
      rw [show splitlinesGo [] (joinC '\n' (l₂ :: ls₂)) =
        splitlines (joinC '\n' (l₂ :: ls₂)) from rfl, ih2]

theorem splitlinesGoF_lines_noSep : ∀ (n : Nat) (acc xs : Str),
    xs.length ≤ n → (∀ c ∈ acc, isLineSep c = false) →
    ∀ l ∈ splitlinesGoF n acc xs, ∀ c ∈ l, isLineSep c = false := by
  intro n
  induction n with
  | zero =>
    intro acc xs hx hacc l hl
    have : xs = [] := List.length_eq_zero.mp (Nat.le_zero.mp hx)
    subst this
    simp only [splitlinesGoF] at hl
    by_cases ha : acc = []
    · rw [if_pos ha] at hl
      simp at hl
    · rw [if_neg ha] at hl
      simp only [List.mem_singleton] at hl
      subst hl
      intro c hc
      exact hacc c (List.mem_reverse.mp hc)
  | succ n ih =>
    intro acc xs hx hacc l hl
    cases xs with
    | nil =>
      simp only [splitlinesGoF] at hl
      by_cases ha : acc = []
      · rw [if_pos ha] at hl
        simp at hl
      · rw [if_neg ha] at hl
        simp only [List.mem_singleton] at hl
        subst hl
        intro c hc
        exact hacc c (List.mem_reverse.mp hc)
    | cons c rest =>
      have hr : rest.length ≤ n := by simpa using hx
      simp only [splitlinesGoF] at hl
      by_cases hc : c = '\r'
      · rw [if_pos hc] at hl
        rcases List.mem_cons.mp hl with rfl | hl
        · intro x hxm
          exact hacc x (List.mem_reverse.mp hxm)
        · exact ih [] (dropNl rest)
            (le_trans (dropNl_length rest) hr) (by simp) l hl
      · rw [if_neg hc] at hl
        by_cases hs : isLineSep c = true
        · rw [if_pos hs] at hl
          rcases List.mem_cons.mp hl with rfl | hl
          · intro x hxm
            exact hacc x (List.mem_reverse.mp hxm)
          · exact ih [] rest hr (by simp) l hl
        · rw [if_neg hs] at hl
          refine ih (c :: acc) rest hr ?_ l hl
          intro x hxm
          rcases List.mem_cons.mp hxm with rfl | hxm
          · exact Bool.not_eq_true _ ▸ hs
          · exact hacc x hxm

theorem splitlines_noSep (s : Str) :
    ∀ l ∈ splitlines s, ∀ c ∈ l, isLineSep c = false :=
  splitlinesGoF_lines_noSep s.length [] s le_rfl (by simp)

theorem lineSub_noSep {l : Str} (h : ∀ c ∈ l, isLineSep c = false) :
    ∀ c ∈ lineSub l, isLineSep c = false := by
  intro c hc
  rcases mem_lineSub l.length l le_rfl c hc with hin | hin
  · exact h c hin
  · have hall : ∀ x ∈ codeOpen ++ codeClose, isLineSep x = false := by decide
    exact hall c hin

theorem lineSub_cons_ne_nil (c : Char) (xs : Str) :
    lineSub (c :: xs) ≠ [] := by
  by_cases h1 : c = '['
  · subst h1
    cases hb : brackSplit xs with
    | some pr =>
      obtain ⟨pre, r⟩ := pr
      rw [lineSub_brack_some hb]
      simp
    | none =>
      rw [lineSub_brack_none hb]
      simp
  · by_cases h2 : c = '\x60'
    · subst h2
      cases ht : tickSplit xs with
      | some ar =>
        obtain ⟨a, r⟩ := ar
        rw [lineSub_tick_some ht]
        simp [codeOpen]
      | none =>
        rw [lineSub_tick_none ht]
        simp
    · rw [lineSub_plain h1 h2]
      simp

theorem getLast_of_map (f : Str → Str) :
    ∀ ls : List Str, (ls.map f).getLast? = ls.getLast?.map f := by
  intro ls
  induction ls with
  | nil => rfl
  | cons l ls ih =>
    cases ls with
    | nil => rfl
    | cons l₂ ls₂ =>
      simp only [List.map_cons, List.getLast?_cons_cons]
      simpa using ih

theorem replace_backticks_idem_cond (s : Str)
    (h : (splitlines s).getLast? ≠ some []) :
    replace_backticks (replace_backticks s) = replace_backticks s := by
  cases hls : splitlines s with
  | nil =>
    have h1 : replace_backticks s = [] := by
      unfold replace_backticks
      rw [hls]
      rfl
    rw [h1]
    rfl
  | cons l₀ ls' =>
    have hrb : replace_backticks s = joinC '\n' ((l₀ :: ls').map lineSub) := by
      unfold replace_backticks
      rw [hls]
    have hmsne : (l₀ :: ls').map lineSub ≠ [] := by simp
    have hml : ∀ m ∈ (l₀ :: ls').map lineSub, ∀ c ∈ m,
        isLineSep c = false := by
      intro m hm
      rcases List.mem_map.mp hm with ⟨l, hl, rfl⟩
      exact lineSub_noSep (splitlines_noSep s l (hls ▸ hl))
    have hmlast : ((l₀ :: ls').map lineSub).getLast? ≠ some [] := by
      rw [getLast_of_map]
      cases hgl : (l₀ :: ls').getLast? with
      | none => simp
      | some last =>
        rw [hls, hgl] at h
        simp only [Option.map_some']
        intro hh
        have hle : lineSub last = [] := Option.some.inj hh
        cases last with
        | nil => exact h rfl
        | cons c t => exact lineSub_cons_ne_nil c t hle
    rw [hrb]
    unfold replace_backticks
    rw [splitlines_joinC ((l₀ :: ls').map lineSub) hmsne hml hmlast]
    congr 1
    rw [List.map_map]
    apply List.map_congr_left
    intro l _
    exact lineSub_idem l

/-- Claim C2 counterexample: `replace_backticks` is not idempotent on every
input.  On "\n\n", `splitlines` yields two empty lines (the trailing empty
segment after the last separator is dropped), so one application returns
"\n" and a second application returns "": the two results differ.  The
substitution itself is idempotent; the failure comes solely from the
`splitlines` / `"\n".join` round trip normalising trailing line
separators. -/
theorem replace_backticks_not_idempotent :
    replace_backticks (replace_backticks "\n\n".data) ≠
      replace_backticks "\n\n".data := by decide

/-- Claim C2 (amended): the per-line `AUTO_REFERENCE_RE` substitution is
idempotent on every line (a pass over already-substituted text makes no
further backtick replacement), and `replace_backticks` itself is idempotent
on every input whose `splitlines` does not end in an empty line — i.e. on
every input that does not end in a line separator; on those the only
non-idempotent ingredient, the `splitlines` / `"\n".join` trailing-newline
normalisation, is the identity. -/
theorem replace_backticks_idempotent_amended :
    (∀ cs : Str, lineSub (lineSub cs) = lineSub cs) ∧
    (∀ s : Str, (splitlines s).getLast? ≠ some [] →
      replace_backticks (replace_backticks s) = replace_backticks s) :=
  ⟨lineSub_idem, replace_backticks_idem_cond⟩

theorem replace_backticks_idempotent_amended_witness :
    (splitlines "see \x60foo\x60 and [bar]".data).getLast? ≠ some [] ∧
    replace_backticks (replace_backticks "see \x60foo\x60 and [bar]".data) =
      replace_backticks "see \x60foo\x60 and [bar]".data :=
  ⟨by decide, replace_backticks_idempotent_amended.2 _ (by decide)⟩

end Docugen
